import Mathlib

/-!
Verification of the `ckipnlp` parsed-tree container
(`ckipnlp/container/util/parsed_tree.py`).

The Python code is shallowly embedded: strings become `List Char`,
fallible operations return `Except Err`, and the `treelib` tree is a
flat list of nodes in creation order with parent pointers.  Node
identifiers are integers (`Int`), matching the caller-assigned ids of
the dict codec and the monotonically issued ids of the text parser.
-/

/-- Error kinds of the embedded code.  `malformedField` models the failure
of `ParsedNodeData.from_text` on more than three `:`-delimited fields
(a `TypeError` in Python, named `MalformedFieldError` by the spec);
`emptyStack` models the `IndexError` raised by `node_queue[-1]` / `pop()`
on an empty list; `multipleRoot`, `duplicateNode`, `parentAbsent` and
`nodeAbsent` model the corresponding `treelib` exceptions; `attrNone`
models the `AttributeError` from calling `.startswith` on `None`;
`fuelOut` is an artefact of the fuelled embedding of recursion and is
proved unreachable on well-formed trees. -/
inductive Err where
  | malformedField
  | emptyStack
  | multipleRoot
  | duplicateNode
  | parentAbsent
  | nodeAbsent
  | attrNone
  | fuelOut
deriving DecidableEq, Repr

/-- A parser node payload: the semantic role, the POS-tag and the text
term, each optional (Python `NamedTuple` with `None` defaults). -/
structure ParsedNodeData where
  role : Option (List Char)
  pos : Option (List Char)
  word : Option (List Char)
deriving DecidableEq, Repr

/-- Python `s.split(sep)` for a single-character separator (used for
`data.split(':')`). -/
def splitChar (sep : Char) : List Char → List (List Char)
  | [] => [[]]
  | c :: rest =>
    if c = sep then [] :: splitChar sep rest
    else
      match splitChar sep rest with
      | [] => [[c]]
      | p :: ps => (c :: p) :: ps

/-- `ParsedNodeData.from_text`: if the text contains `:` it is split on
`:` and the pieces fill `(role, pos, word)` positionally (more than
three pieces do not fit the three-field tuple and fail); otherwise the
whole text is the `pos` field. -/
def ParsedNodeData.from_text (data : List Char) : Except Err ParsedNodeData :=
  if data.contains ':' then
    match splitChar ':' data with
    | [] => .ok ⟨none, none, none⟩
    | [r] => .ok ⟨some r, none, none⟩
    | [r, p] => .ok ⟨some r, some p, none⟩
    | [r, p, w] => .ok ⟨some r, some p, some w⟩
    | _ => .error .malformedField
  else .ok ⟨none, some data, none⟩

/-- Join character lists with a separator character (Python `':'.join`). -/
def joinChar (sep : Char) : List (List Char) → List Char
  | [] => []
  | [x] => x
  | x :: y :: xs => x ++ sep :: joinChar sep (y :: xs)

/-- `ParsedNodeData.to_text`: join the fields that are present and
non-empty with `:` (Python `':'.join(filter(None, self))`, where
`filter(None, ...)` drops both `None` and empty strings). -/
def ParsedNodeData.to_text (d : ParsedNodeData) : List Char :=
  joinChar ':' (([d.role, d.pos, d.word].filterMap id).filter (fun s => !s.isEmpty))

/-- A tree vertex as stored by the tree: identifier, display tag,
parent pointer and payload. -/
structure FlatNode where
  id : Int
  tag : List Char
  parent : Option Int
  data : ParsedNodeData
deriving DecidableEq, Repr

/-- The parsed tree: its nodes listed in creation order.  Children of a
node are the nodes pointing at it, in creation order, which is exactly
`treelib`'s insertion-ordered successor list. -/
structure ParsedTree where
  nodes : List FlatNode
deriving DecidableEq, Repr

def ParsedTree.ids (t : ParsedTree) : List Int := t.nodes.map (·.id)

def ParsedTree.find (t : ParsedTree) (k : Int) : Option FlatNode :=
  t.nodes.find? (fun nd => nd.id == k)

def ParsedTree.children (t : ParsedTree) (k : Int) : List FlatNode :=
  t.nodes.filter (fun nd => nd.parent == some k)

/-- `treelib`'s `tree.root`: the identifier of the unique parentless
node (`None` for an empty tree). -/
def ParsedTree.rootId (t : ParsedTree) : Option Int :=
  (t.nodes.find? (fun nd => nd.parent.isNone)).map (·.id)

/-- `tree.create_node(tag, identifier, parent, data)` as provided by
`treelib`: rejects a duplicate identifier, a second root and a missing
parent, otherwise appends the node. -/
def ParsedTree.create_node (t : ParsedTree) (tag : List Char) (nid : Int)
    (parent : Option Int) (data : ParsedNodeData) : Except Err ParsedTree :=
  if t.ids.contains nid then .error .duplicateNode
  else
    match parent with
    | none =>
      if t.nodes.any (fun nd => nd.parent.isNone) then .error .multipleRoot
      else .ok ⟨t.nodes ++ [⟨nid, tag, none, data⟩]⟩
    | some p =>
      if t.ids.contains p then .ok ⟨t.nodes ++ [⟨nid, tag, some p, data⟩]⟩
      else .error .parentAbsent

/-- The state of `ParsedTree.from_text`'s character scan: the tree built
so far, the next identifier, the stack of open parent ids (`node_queue`,
whose bottom sentinel is `none`), the accumulating text buffer and the
`ending` flag. -/
structure ScanState where
  tree : ParsedTree
  nodeId : Int
  queue : List (Option Int)
  text : List Char
  ending : Bool
deriving DecidableEq, Repr

/-- The `if not ending:` flush shared by the `)` and `|` branches:
parse the buffer and create a node under the top of the stack. -/
def flushIfPending (s : ScanState) : Except Err ScanState :=
  if s.ending then .ok s
  else do
    let nd ← ParsedNodeData.from_text s.text
    match s.queue.getLast? with
    | none => .error .emptyStack
    | some par => do
      let t ← s.tree.create_node s.text s.nodeId par nd
      .ok ⟨t, s.nodeId + 1, s.queue, s.text, s.ending⟩

/-- One character of `ParsedTree.from_text`'s scan.  On `(` the buffer
is flushed unconditionally and the new id pushed (the `ending` flag is
left untouched, exactly as in the source); on `)` a pending buffer is
flushed and the stack popped; on `|` a pending buffer is flushed; any
other character is appended to the buffer and clears `ending`. -/
def stepChar (s : ScanState) (c : Char) : Except Err ScanState :=
  if c = '(' then do
    let nd ← ParsedNodeData.from_text s.text
    match s.queue.getLast? with
    | none => .error .emptyStack
    | some par => do
      let t ← s.tree.create_node s.text s.nodeId par nd
      .ok ⟨t, s.nodeId + 1, s.queue ++ [some s.nodeId], [], s.ending⟩
  else if c = ')' then do
    let s1 ← flushIfPending s
    if s1.queue.isEmpty then .error .emptyStack
    else .ok ⟨s1.tree, s1.nodeId, s1.queue.dropLast, [], true⟩
  else if c = '|' then do
    let s1 ← flushIfPending s
    .ok ⟨s1.tree, s1.nodeId, s1.queue, [], true⟩
  else .ok ⟨s.tree, s.nodeId, s.queue, s.text ++ [c], false⟩

/-- Scan a list of characters from a state (the parser's `for char in
data:` loop). -/
def scan (s : ScanState) : List Char → Except Err ScanState
  | [] => .ok s
  | c :: rest => do
    let s1 ← stepChar s c
    scan s1 rest

/-- `findSep sep s` locates the first occurrence of `sep` in `s`,
returning the part before it and the part after it. -/
def findSep (sep : List Char) : List Char → Option (List Char × List Char)
  | [] => if sep.isEmpty then some ([], []) else none
  | c :: rest =>
    if sep.isPrefixOf (c :: rest) then some ([], (c :: rest).drop sep.length)
    else (findSep sep rest).map (fun pr => (c :: pr.1, pr.2))

/-- Python `s.split(sep, maxsplit)`: split on the leftmost occurrences
of `sep`, at most `maxsplit` times; the remainder is kept whole. -/
def pySplit (sep : List Char) : Nat → List Char → List (List Char)
  | 0, s => [s]
  | m + 1, s =>
    match findSep sep s with
    | none => [s]
    | some (before, after) => before :: pySplit sep m after

/-- Python `s.rstrip('#')`: remove every trailing `#`. -/
def rstripHash (s : List Char) : List Char :=
  (s.reverse.dropWhile (fun c => c == '#')).reverse

/-- `ParsedTree.normalize_text`: if the text contains `#`, keep the last
piece of `text.split('] ', 2)` and strip trailing `#`s. -/
def ParsedTree.normalize_text (s : List Char) : List Char :=
  if s.contains '#' then rstripHash ((pySplit ("] ".toList) 2 s).getLastD []) else s

/-- `ParsedTree.from_text(data, normalize=...)`: optionally normalize,
then run the character scan from the initial state (empty tree, next id
0, stack holding the root sentinel, empty buffer, `ending` true). -/
def ParsedTree.from_text (data : List Char) (normalize : Bool) : Except Err ParsedTree :=
  let data := if normalize then ParsedTree.normalize_text data else data
  (scan ⟨⟨[]⟩, 0, [none], [], true⟩ data).map (·.tree)

/-- Except-valued map over a list (the embedding of a Python loop of
generator yields that may raise). -/
def mapME (f : α → Except Err β) : List α → Except Err (List β)
  | [] => .ok []
  | a :: l => do
    let b ← f a
    let bs ← mapME f l
    .ok (b :: bs)

/-- `ParsedTree.to_text(node_id)` with explicit recursion fuel: render
the node's own data, recursively render the children joined by `|` and
wrap them in parentheses when the joined text is non-empty. -/
def ParsedTree.toTextAux (t : ParsedTree) : Nat → Int → Except Err (List Char)
  | 0, _ => .error .fuelOut
  | fuel + 1, nid => do
    let node ← match t.find nid with
      | some nd => Except.ok nd
      | none => Except.error Err.nodeAbsent
    let base := node.data.to_text
    let texts ← mapME (fun c => t.toTextAux fuel c.id) (t.children nid)
    let ct := joinChar '|' texts
    .ok (if ct.isEmpty then base else base ++ '(' :: (ct ++ [')']))

/-- `ParsedTree.to_text()` with the default `node_id=None`: start from
`self.root` (failing on an empty tree, where the lookup of `None`
raises). -/
def ParsedTree.to_text (t : ParsedTree) : Except Err (List Char) :=
  match t.rootId with
  | none => .error .nodeAbsent
  | some r => t.toTextAux t.nodes.length r

def ParsedTree.is_leaf (t : ParsedTree) (nd : FlatNode) : Bool :=
  (t.children nd.id).isEmpty

/-- The head-selection cascade of `get_heads` over a non-empty list of
children: `DUMMY`/`DUMMY1`/`DUMMY2` (semantic), then `head` (semantic),
then `Head`, then the last child as fallback. -/
def headSelect (sem : Bool) (cs : List FlatNode) : List FlatNode :=
  let hn : List FlatNode := []
  let hn := if sem && hn.isEmpty then
      cs.filter (fun c =>
        c.data.role == some ("DUMMY".toList) || c.data.role == some ("DUMMY1".toList) ||
          c.data.role == some ("DUMMY2".toList))
    else hn
  let hn := if sem && hn.isEmpty then
      cs.filter (fun c => c.data.role == some ("head".toList)) else hn
  let hn := if hn.isEmpty then
      cs.filter (fun c => c.data.role == some ("Head".toList)) else hn
  if hn.isEmpty then
    match cs.getLast? with
    | some c => [c]
    | none => []
  else hn

/-- `ParsedTree.get_heads(root_id, semantic, deep)` with explicit fuel.
With no children the node is its own head; otherwise the selection
cascade runs over the children, and with `deep` each selected non-leaf
head is replaced by its own heads (the recursive call uses the default
`deep=True`, as in the source). -/
def ParsedTree.headsAux (t : ParsedTree) (sem : Bool) : Bool → Nat → Int → Except Err (List FlatNode)
  | _, 0, _ => .error .fuelOut
  | deep, fuel + 1, nid => do
    let cs := t.children nid
    let head_nodes ←
      if cs.isEmpty then
        match t.find nid with
        | some nd => Except.ok [nd]
        | none => Except.error Err.nodeAbsent
      else Except.ok (headSelect sem cs)
    let parts ← mapME (fun nd =>
      if deep && !(t.is_leaf nd) then t.headsAux sem true fuel nd.id
      else Except.ok [nd]) head_nodes
    .ok parts.flatten

def ParsedTree.get_heads (t : ParsedTree) (sem deep : Bool) (nid : Int) :
    Except Err (List FlatNode) :=
  t.headsAux sem deep t.nodes.length nid

/-- A head-dependent relation: head node, tail node and the relation
node (whose role labels the relation). -/
structure ParsedRelation where
  head : FlatNode
  tail : FlatNode
  relation : FlatNode
deriving DecidableEq, Repr

/-- `ParsedTree.get_relations(root_id, semantic)` with explicit fuel:
pair every deep head with every child that is neither role `Head` nor a
shallow head; a leaf tail is its own relation target, a non-leaf tail
contributes one relation per deep head of its subtree; then recurse
into every child. -/
def ParsedTree.relAux (t : ParsedTree) (sem : Bool) : Nat → Int → Except Err (List ParsedRelation)
  | 0, _ => .error .fuelOut
  | fuel + 1, nid => do
    let cs := t.children nid
    let head_children ← t.get_heads sem false nid
    let heads ← t.get_heads sem true nid
    let parts ← mapME (fun h => do
      let tailParts ← mapME (fun tl =>
        if tl.data.role != some ("Head".toList) &&
            !(head_children.any (fun hc => hc.id == tl.id)) then
          if t.is_leaf tl then Except.ok [ParsedRelation.mk h tl tl]
          else (t.get_heads sem true tl.id).map (fun ns =>
            ns.map (fun nd => ParsedRelation.mk h nd tl))
        else Except.ok []) cs
      Except.ok tailParts.flatten) heads
    let recParts ← mapME (fun c => t.relAux sem fuel c.id) cs
    .ok (parts.flatten ++ recParts.flatten)

def ParsedTree.get_relations (t : ParsedTree) (sem : Bool) (nid : Int) :
    Except Err (List ParsedRelation) :=
  t.relAux sem t.nodes.length nid

/-- Membership of an optional role in a role set (Python `role in ROLES`
where `ROLES` is a tuple of strings: `None` is never a member). -/
def roleMem (r : Option (List Char)) (roles : List (List Char)) : Bool :=
  match r with
  | some s => roles.contains s
  | none => false

/-- Python `s.startswith(c)` for a one-character prefix. -/
def strStarts (c : Char) : List Char → Bool
  | [] => false
  | x :: _ => x == c

/-- Attribute access on an optional string: Python raises
`AttributeError` when calling a string method on `None`. -/
def attrPos : Option (List Char) → Except Err (List Char)
  | some p => .ok p
  | none => .error .attrNone

/-- `ParsedTree.get_subjects(root_id, semantic, deep)`.  `subjectRoles`
and `neutralRoles` are parameters.  Modelled from the spec: the code
imports `SUBJECT_ROLES` and `NEUTRAL_ROLES` from `ckipnlp.data.parsed`,
which is not part of the provided sources; the spec describes them only
as two fixed, externally-defined sets of role labels, so they are kept
abstract here. -/
def ParsedTree.get_subjects (t : ParsedTree) (subjectRoles neutralRoles : List (List Char))
    (sem deep : Bool) (nid : Int) : Except Err (List FlatNode) := do
  let root ← match t.find nid with
    | some nd => Except.ok nd
    | none => Except.error Err.nodeAbsent
  if root.data.pos == some ("NP".toList) then t.get_heads sem deep nid
  else if root.data.pos == some ("S".toList) then do
    let heads ← t.get_heads false false nid
    let parts ← mapME (fun h => do
      let hp ← attrPos h.data.pos
      if strStarts 'V' hp then do
        let subParts ← mapME (fun subroot => do
          let sp ← attrPos subroot.data.pos
          if strStarts 'N' sp &&
              (roleMem subroot.data.role subjectRoles ||
                (roleMem subroot.data.role neutralRoles && decide (subroot.id < h.id))) then
            t.get_heads sem deep subroot.id
          else Except.ok []) (t.children nid)
        Except.ok subParts.flatten
      else Except.ok []) heads
    Except.ok parts.flatten
  else Except.ok []

/-! ### Basic lemmas about the embedding's plumbing -/

theorem ebind_ok (a : α) (f : α → Except Err β) : (Except.ok a >>= f) = f a := rfl

theorem ebind_err (e : Err) (f : α → Except Err β) :
    ((Except.error e : Except Err α) >>= f) = .error e := rfl

theorem emap_ok (a : α) (f : α → β) :
    (Except.ok a : Except Err α).map f = .ok (f a) := rfl

theorem emap_err (e : Err) (f : α → β) :
    (Except.error e : Except Err α).map f = .error e := rfl

theorem mapME_ok_mem {f : α → Except Err β} :
    ∀ {l : List α} {bs : List β}, mapME f l = .ok bs → ∀ b ∈ bs, ∃ a ∈ l, f a = .ok b := by
  intro l
  induction l with
  | nil =>
    intro bs h b hb
    simp only [mapME, Except.ok.injEq] at h
    subst h
    simp at hb
  | cons a l ih =>
    intro bs h b hb
    simp only [mapME] at h
    cases h1 : f a with
    | error e => rw [h1] at h; simp [ebind_err] at h
    | ok b0 =>
      rw [h1] at h
      cases h2 : mapME f l with
      | error e => rw [h2] at h; simp [ebind_ok, ebind_err] at h
      | ok bs0 =>
        rw [h2] at h
        simp only [ebind_ok, Except.ok.injEq] at h
        subst h
        rcases List.mem_cons.mp hb with hb | hb
        · exact ⟨a, List.mem_cons_self a l, hb ▸ h1⟩
        · obtain ⟨a', ha', hfa'⟩ := ih h2 b hb
          exact ⟨a', List.mem_cons_of_mem _ ha', hfa'⟩

theorem scan_append (l1 l2 : List Char) :
    ∀ s : ScanState, scan s (l1 ++ l2) = (scan s l1) >>= (fun s' => scan s' l2) := by
  induction l1 with
  | nil => intro s; simp [scan, ebind_ok]
  | cons c rest ih =>
    intro s
    simp only [List.cons_append, scan]
    cases h : stepChar s c with
    | error e => simp [h, ebind_err]
    | ok s1 => simp [h, ebind_ok, ih]

/-! ### Claim C6: `normalize_text` -/

theorem findSep_eq_none (s : List Char) (h : ']' ∉ s) :
    findSep ("] ".toList) s = none := by
  induction s with
  | nil => simp [findSep]
  | cons c rest ih =>
    have hc : c ≠ ']' := fun hc => h (hc ▸ List.mem_cons_self c rest)
    have hrest : ']' ∉ rest := fun hm => h (List.mem_cons_of_mem _ hm)
    simp only [findSep, List.isPrefixOf]
    rw [if_neg, ih hrest]
    · rfl
    · simp [Ne.symm hc]

theorem findSep_append (a r : List Char) (h : ']' ∉ a) :
    findSep ("] ".toList) (a ++ ']' :: ' ' :: r) = some (a, r) := by
  induction a with
  | nil => simp [findSep, List.isPrefixOf]
  | cons c rest ih =>
    have hc : c ≠ ']' := fun hc => h (hc ▸ List.mem_cons_self c rest)
    have hrest : ']' ∉ rest := fun hm => h (List.mem_cons_of_mem _ hm)
    simp only [List.cons_append, findSep, List.isPrefixOf]
    rw [if_neg]
    · rw [List.append_eq, ih hrest]
      rfl
    · simp [Ne.symm hc]

theorem dropWhile_hash_replicate (k : Nat) :
    (List.replicate k '#').dropWhile (fun c => c == '#') = [] := by
  induction k with
  | zero => rfl
  | succ n ih => simp [List.replicate, List.dropWhile, ih]

theorem rstripHash_append (c : List Char) (k : Nat) (h : c.getLast? ≠ some '#') :
    rstripHash (c ++ List.replicate k '#') = c := by
  unfold rstripHash
  rw [List.reverse_append, List.reverse_replicate, List.dropWhile_append,
    dropWhile_hash_replicate]
  simp only [List.isEmpty_nil, if_true]
  cases hc : c.reverse with
  | nil =>
    have : c = [] := by simpa using congrArg List.reverse hc
    simp [this]
  | cons x t =>
    have hx : c.getLast? = some x := by
      rw [← List.head?_reverse, hc]; rfl
    have hxh : (x == '#') = false := by
      simp only [beq_eq_false_iff_ne]
      intro heq
      exact h (heq ▸ hx)
    rw [List.dropWhile_cons, hxh]
    simp only [Bool.false_eq_true, if_false]
    calc (x :: t).reverse = c.reverse.reverse := by rw [hc]
    _ = c := List.reverse_reverse c

theorem pySplit_succ (sep : List Char) (m : Nat) (s : List Char) :
    pySplit sep (m + 1) s =
      match findSep sep s with
      | none => [s]
      | some (before, after) => before :: pySplit sep m after := rfl

theorem pySplit_one_no_sep (s : List Char) (h : ']' ∉ s) :
    pySplit ("] ".toList) 1 s = [s] := by
  rw [show (1 : Nat) = 0 + 1 from rfl, pySplit_succ, findSep_eq_none s h]

/-- Claim C6 (amended): on input containing `#`, `normalize_text` keeps
the last piece of the at-most-two splits on `"] "` — i.e. it discards
everything up through the second occurrence of `"] "` when two or more
occur, and through the first occurrence when exactly one occurs — and
then strips all trailing `#` characters; input without `#` is returned
unchanged, and the spec's concrete example still normalizes as stated. -/
theorem normalize_text_behavior :
    (∀ s : List Char, '#' ∉ s → ParsedTree.normalize_text s = s) ∧
    (ParsedTree.normalize_text ("[3] S(Head:Na:x)#".toList) = "S(Head:Na:x)".toList) ∧
    (∀ a c : List Char, ∀ k : Nat, ']' ∉ a → ']' ∉ c → c.getLast? ≠ some '#' → 0 < k →
      ParsedTree.normalize_text (a ++ ']' :: ' ' :: (c ++ List.replicate k '#')) = c) ∧
    (∀ a b c : List Char, ∀ k : Nat, ']' ∉ a → ']' ∉ b → c.getLast? ≠ some '#' → 0 < k →
      ParsedTree.normalize_text
        (a ++ ']' :: ' ' :: (b ++ ']' :: ' ' :: (c ++ List.replicate k '#'))) = c) := by
  refine ⟨?_, by decide, ?_, ?_⟩
  · intro s h
    unfold ParsedTree.normalize_text
    rw [if_neg]
    intro hc
    exact h (List.elem_iff.mp hc)
  · intro a c k ha hc hlast hk
    have hhash : '#' ∈ a ++ ']' :: ' ' :: (c ++ List.replicate k '#') := by
      refine List.mem_append_right _ ?_
      refine List.mem_cons_of_mem _ (List.mem_cons_of_mem _ (List.mem_append_right _ ?_))
      exact List.mem_replicate.mpr ⟨by omega, rfl⟩
    have hnc : ']' ∉ c ++ List.replicate k '#' := by
      intro hm
      rcases List.mem_append.mp hm with hm | hm
      · exact hc hm
      · exact absurd (List.mem_replicate.mp hm).2 (by decide)
    unfold ParsedTree.normalize_text
    rw [if_pos (List.elem_iff.mpr hhash)]
    have e2 : pySplit ("] ".toList) 2 (a ++ ']' :: ' ' :: (c ++ List.replicate k '#'))
        = a :: pySplit ("] ".toList) 1 (c ++ List.replicate k '#') := by
      rw [show (2 : Nat) = 1 + 1 from rfl, pySplit_succ, findSep_append a _ ha]
    rw [e2, pySplit_one_no_sep _ hnc]
    simpa using rstripHash_append c k hlast
  · intro a b c k ha hb hlast hk
    have hhash : '#' ∈ a ++ ']' :: ' ' :: (b ++ ']' :: ' ' :: (c ++ List.replicate k '#')) := by
      refine List.mem_append_right _ ?_
      refine List.mem_cons_of_mem _ (List.mem_cons_of_mem _ (List.mem_append_right _ ?_))
      refine List.mem_cons_of_mem _ (List.mem_cons_of_mem _ (List.mem_append_right _ ?_))
      exact List.mem_replicate.mpr ⟨by omega, rfl⟩
    unfold ParsedTree.normalize_text
    rw [if_pos (List.elem_iff.mpr hhash)]
    have e2 : pySplit ("] ".toList) 2
          (a ++ ']' :: ' ' :: (b ++ ']' :: ' ' :: (c ++ List.replicate k '#')))
        = a :: pySplit ("] ".toList) 1 (b ++ ']' :: ' ' :: (c ++ List.replicate k '#')) := by
      rw [show (2 : Nat) = 1 + 1 from rfl, pySplit_succ, findSep_append a _ ha]
    have e1 : pySplit ("] ".toList) 1 (b ++ ']' :: ' ' :: (c ++ List.replicate k '#'))
        = b :: pySplit ("] ".toList) 0 (c ++ List.replicate k '#') := by
      rw [show (1 : Nat) = 0 + 1 from rfl, pySplit_succ, findSep_append b _ hb]
    rw [e2, e1]
    simpa [pySplit] using rstripHash_append c k hlast

/-- Claim C6 witness: the amended behavior applied to a `#`-free input,
to the spec's own single-occurrence example, and to a two-occurrence
input. -/
theorem normalize_text_behavior_w :
    ParsedTree.normalize_text ("abc".toList) = "abc".toList ∧
    ParsedTree.normalize_text
        ("[3".toList ++ ']' :: ' ' :: ("S(Head:Na:x)".toList ++ List.replicate 1 '#'))
      = "S(Head:Na:x)".toList ∧
    ParsedTree.normalize_text
        ("a".toList ++ ']' :: ' ' :: ("b".toList ++ ']' :: ' ' :: ("c".toList ++ List.replicate 1 '#')))
      = "c".toList := by
  have h := normalize_text_behavior
  exact ⟨h.1 ("abc".toList) (by decide),
    h.2.2.1 ("[3".toList) ("S(Head:Na:x)".toList) 1 (by decide) (by decide) (by decide)
      (by decide),
    h.2.2.2 ("a".toList) ("b".toList) ("c".toList) 1 (by decide) (by decide) (by decide)
      (by decide)⟩

/-- Claim C6, counterexample to the original claim: on `"a] b] c#"` the
claim predicts `"b] c"` (discard through the first `"] "`, strip the
trailing `#`), but `split('] ', 2)` has maxsplit 2, so the code keeps
only `"c"`. -/
theorem normalize_text_first_occurrence_fails :
    ParsedTree.normalize_text ("a] b] c#".toList) = "c".toList ∧
    ("c".toList : List Char) ≠ "b] c".toList := by
  constructor
  · rfl
  · decide

/-! ### Claim C7: `ParsedNodeData.from_text` field counts -/

theorem splitChar_ne_nil (c : Char) (s : List Char) : splitChar c s ≠ [] := by
  cases s with
  | nil => simp [splitChar]
  | cons a rest =>
    simp only [splitChar]
    split
    · simp
    · split <;> simp

theorem splitChar_not_contains (c : Char) (s : List Char) (h : s.contains c = false) :
    splitChar c s = [s] := by
  induction s with
  | nil => rfl
  | cons a rest ih =>
    simp only [List.contains_cons, Bool.or_eq_false_iff, beq_eq_false_iff_ne] at h
    simp only [splitChar]
    rw [if_neg (Ne.symm h.1), ih h.2]

theorem splitChar_length_of_contains (c : Char) (s : List Char)
    (h : s.contains c = true) : 2 ≤ (splitChar c s).length := by
  induction s with
  | nil => simp at h
  | cons a rest ih =>
    simp only [List.contains_cons, Bool.or_eq_true, beq_iff_eq] at h
    simp only [splitChar]
    by_cases hac : a = c
    · rw [if_pos hac]
      have := splitChar_ne_nil c rest
      have : 1 ≤ (splitChar c rest).length := by
        cases hsp : splitChar c rest
        · exact absurd hsp this
        · simp
      simp only [List.length_cons]
      omega
    · rw [if_neg hac]
      have hr : rest.contains c = true := by
        rcases h with h | h
        · exact absurd h.symm hac
        · exact h
      have h2 := ih hr
      rcases hsp : splitChar c rest with _ | ⟨p, ps⟩
      · exact absurd hsp (splitChar_ne_nil c rest)
      · rw [hsp] at h2
        simp only [List.length_cons] at h2 ⊢
        omega

theorem contains_of_splitChar_long (c : Char) (s : List Char)
    (h : 2 ≤ (splitChar c s).length) : s.contains c = true := by
  cases hcv : s.contains c
  · rw [splitChar_not_contains c s hcv] at h
    simp at h
  · rfl

/-- Claim C7: splitting on `:`, more than three fields makes
`ParsedNodeData.from_text` fail with the malformed-field error; exactly
three fields map to `(role, pos, word)`; two fields map to `(role, pos)`
with `word` unset; a single field (no `:`) is taken as `pos` alone. -/
theorem node_from_text_fields (s : List Char) :
    (3 < (splitChar ':' s).length →
      ParsedNodeData.from_text s = .error .malformedField) ∧
    (∀ r p w, splitChar ':' s = [r, p, w] →
      ParsedNodeData.from_text s = .ok ⟨some r, some p, some w⟩) ∧
    (∀ r p, splitChar ':' s = [r, p] →
      ParsedNodeData.from_text s = .ok ⟨some r, some p, none⟩) ∧
    ((splitChar ':' s).length = 1 →
      ParsedNodeData.from_text s = .ok ⟨none, some s, none⟩) := by
  refine ⟨?_, ?_, ?_, ?_⟩
  · intro h
    have hc : s.contains ':' = true := contains_of_splitChar_long ':' s (by omega)
    unfold ParsedNodeData.from_text
    rw [if_pos hc]
    rcases hsp : splitChar ':' s with _ | ⟨r, _ | ⟨p, _ | ⟨w, _ | rest⟩⟩⟩ <;>
      rw [hsp] at h <;> simp_all
  · intro r p w hsp
    have hc : s.contains ':' = true := contains_of_splitChar_long ':' s (by rw [hsp]; simp)
    unfold ParsedNodeData.from_text
    rw [if_pos hc, hsp]
  · intro r p hsp
    have hc : s.contains ':' = true := contains_of_splitChar_long ':' s (by rw [hsp]; simp)
    unfold ParsedNodeData.from_text
    rw [if_pos hc, hsp]
  · intro h
    have hc : s.contains ':' = false := by
      cases hcv : s.contains ':'
      · rfl
      · have := splitChar_length_of_contains ':' s hcv
        omega
    unfold ParsedNodeData.from_text
    rw [if_neg (by intro hx; rw [hc] at hx; cases hx)]

/-- Claim C7 witness: concrete inputs with four, three, two and one
`:`-delimited fields. -/
theorem node_from_text_fields_w :
    ParsedNodeData.from_text ("a:b:c:d".toList) = .error .malformedField ∧
    ParsedNodeData.from_text ("Head:Nab:中文字".toList)
      = .ok ⟨some ("Head".toList), some ("Nab".toList), some ("中文字".toList)⟩ ∧
    ParsedNodeData.from_text ("Head:Na".toList)
      = .ok ⟨some ("Head".toList), some ("Na".toList), none⟩ ∧
    ParsedNodeData.from_text ("Na".toList) = .ok ⟨none, some ("Na".toList), none⟩ :=
  ⟨(node_from_text_fields ("a:b:c:d".toList)).1 (by decide),
   (node_from_text_fields ("Head:Nab:中文字".toList)).2.1 _ _ _ (by decide),
   (node_from_text_fields ("Head:Na".toList)).2.2.1 _ _ (by decide),
   (node_from_text_fields ("Na".toList)).2.2.2 (by decide)⟩

/-! ### Claim C2: head fallback to the last child -/

theorem headsAux_branch (t : ParsedTree) (sem dp : Bool) (f : Nat) (nid : Int)
    (hemp : (t.children nid).isEmpty = false) :
    t.headsAux sem dp (f + 1) nid =
      (mapME (fun nd => if dp && !(t.is_leaf nd) then t.headsAux sem true f nd.id
        else .ok [nd]) (headSelect sem (t.children nid))).map List.flatten := by
  simp only [ParsedTree.headsAux, hemp, Bool.false_eq_true, if_false, ebind_ok]
  cases h : mapME (fun nd => if dp && !(t.is_leaf nd) then t.headsAux sem true f nd.id
      else .ok [nd]) (headSelect sem (t.children nid)) with
  | error e => rw [ebind_err, emap_err]
  | ok parts => rw [ebind_ok, emap_ok]

theorem headSelect_no_roles (sem : Bool) (cs : List FlatNode) (hne : cs ≠ [])
    (hrol : ∀ c ∈ cs,
      c.data.role ≠ some ("Head".toList) ∧ c.data.role ≠ some ("head".toList) ∧
      c.data.role ≠ some ("DUMMY".toList) ∧ c.data.role ≠ some ("DUMMY1".toList) ∧
      c.data.role ≠ some ("DUMMY2".toList)) :
    headSelect sem cs = [cs.getLast hne] := by
  have f1 : cs.filter (fun c =>
      c.data.role == some ("DUMMY".toList) || c.data.role == some ("DUMMY1".toList) ||
        c.data.role == some ("DUMMY2".toList)) = [] := by
    refine List.filter_eq_nil_iff.mpr (fun c hc => ?_)
    obtain ⟨_, _, h3, h4, h5⟩ := hrol c hc
    simp only [Bool.or_eq_true, beq_iff_eq, not_or]
    exact ⟨⟨h3, h4⟩, h5⟩
  have f2 : cs.filter (fun c => c.data.role == some ("head".toList)) = [] := by
    refine List.filter_eq_nil_iff.mpr (fun c hc => ?_)
    obtain ⟨_, h2, _, _, _⟩ := hrol c hc
    simp only [beq_iff_eq]
    exact h2
  have f3 : cs.filter (fun c => c.data.role == some ("Head".toList)) = [] := by
    refine List.filter_eq_nil_iff.mpr (fun c hc => ?_)
    obtain ⟨h1, _, _, _, _⟩ := hrol c hc
    simp only [beq_iff_eq]
    exact h1
  unfold headSelect
  simp only [List.isEmpty_nil, Bool.and_true, f1, f2, f3]
  cases sem <;>
    simp [List.getLast?_eq_getLast cs hne]

/-- Claim C2: when none of a node's children carries the role `Head`,
`head`, `DUMMY`, `DUMMY1` or `DUMMY2`, `get_heads` with `semantic=True`
selects the last child (in sibling order) as the head; in particular
when that last child is a leaf, `get_heads` yields exactly the last
child for either value of `deep`. -/
theorem get_heads_fallback (t : ParsedTree) (nid : Int) (hne : t.children nid ≠ [])
    (hrol : ∀ c ∈ t.children nid,
      c.data.role ≠ some ("Head".toList) ∧ c.data.role ≠ some ("head".toList) ∧
      c.data.role ≠ some ("DUMMY".toList) ∧ c.data.role ≠ some ("DUMMY1".toList) ∧
      c.data.role ≠ some ("DUMMY2".toList)) :
    (t.get_heads true false nid = .ok [(t.children nid).getLast hne]) ∧
    (t.is_leaf ((t.children nid).getLast hne) = true →
      ∀ dp, t.get_heads true dp nid = .ok [(t.children nid).getLast hne]) := by
  have hemp : (t.children nid).isEmpty = false := List.isEmpty_eq_false.mpr hne
  have hnodes : t.nodes ≠ [] := by
    intro h0
    apply hne
    unfold ParsedTree.children
    rw [h0]
    rfl
  obtain ⟨f, hf⟩ : ∃ f, t.nodes.length = f + 1 := by
    cases hn : t.nodes with
    | nil => exact absurd hn hnodes
    | cons a l => exact ⟨l.length, by simp⟩
  have hsel := headSelect_no_roles true (t.children nid) hne hrol
  constructor
  · unfold ParsedTree.get_heads
    rw [hf, headsAux_branch t true false f nid hemp, hsel]
    rfl
  · intro hleaf dp
    unfold ParsedTree.get_heads
    rw [hf, headsAux_branch t true dp f nid hemp, hsel]
    simp only [mapME, hleaf, Bool.not_true, Bool.and_false, Bool.false_eq_true, if_false]
    rfl

/-- Claim C2 witness: a root with three leaf children whose roles are
none of the head-marking ones; both the shallow and the deep call yield
the third child. -/
theorem get_heads_fallback_w :
    (ParsedTree.mk
        [⟨0, "S".toList, none, ⟨none, some ("S".toList), none⟩⟩,
         ⟨1, "a:Na:x".toList, some 0, ⟨some ("a".toList), some ("Na".toList), some ("x".toList)⟩⟩,
         ⟨2, "b:Nb:y".toList, some 0, ⟨some ("b".toList), some ("Nb".toList), some ("y".toList)⟩⟩,
         ⟨3, "c:Nc:z".toList, some 0, ⟨some ("c".toList), some ("Nc".toList), some ("z".toList)⟩⟩]).get_heads
        true false 0
      = .ok [⟨3, "c:Nc:z".toList, some 0, ⟨some ("c".toList), some ("Nc".toList), some ("z".toList)⟩⟩] ∧
    (ParsedTree.mk
        [⟨0, "S".toList, none, ⟨none, some ("S".toList), none⟩⟩,
         ⟨1, "a:Na:x".toList, some 0, ⟨some ("a".toList), some ("Na".toList), some ("x".toList)⟩⟩,
         ⟨2, "b:Nb:y".toList, some 0, ⟨some ("b".toList), some ("Nb".toList), some ("y".toList)⟩⟩,
         ⟨3, "c:Nc:z".toList, some 0, ⟨some ("c".toList), some ("Nc".toList), some ("z".toList)⟩⟩]).get_heads
        true true 0
      = .ok [⟨3, "c:Nc:z".toList, some 0, ⟨some ("c".toList), some ("Nc".toList), some ("z".toList)⟩⟩] := by
  have h := get_heads_fallback
    (ParsedTree.mk
      [⟨0, "S".toList, none, ⟨none, some ("S".toList), none⟩⟩,
       ⟨1, "a:Na:x".toList, some 0, ⟨some ("a".toList), some ("Na".toList), some ("x".toList)⟩⟩,
       ⟨2, "b:Nb:y".toList, some 0, ⟨some ("b".toList), some ("Nb".toList), some ("y".toList)⟩⟩,
       ⟨3, "c:Nc:z".toList, some 0, ⟨some ("c".toList), some ("Nc".toList), some ("z".toList)⟩⟩])
    0 (by decide) (by decide)
  exact ⟨h.1, h.2 (by decide) true⟩

/-! ### Claim C3: relations of the example tree -/

/-- Claim C3: parsing `S(Head:Nab:中文字|particle:Td:耶)` (whose root id
is 0) and listing the relations of the root yields exactly one
relation, whose head has tag `Head:Nab:中文字` and whose tail and
relation nodes both have tag `particle:Td:耶`. -/
theorem get_relations_example :
    ((ParsedTree.from_text ("S(Head:Nab:中文字|particle:Td:耶)".toList) false).map
        (fun t => t.rootId)) = .ok (some 0) ∧
    ((ParsedTree.from_text ("S(Head:Nab:中文字|particle:Td:耶)".toList) false).bind
        (fun t => (t.get_relations true 0).map
          (fun rs => rs.map (fun r => (r.head.tag, r.tail.tag, r.relation.tag)))))
      = .ok [("Head:Nab:中文字".toList, "particle:Td:耶".toList, "particle:Td:耶".toList)] := by
  constructor
  · rfl
  · rfl

/-! ### Claim C8: separators on an empty parent stack -/

theorem stepChar_close_empty_queue (s : ScanState) (hq : s.queue = []) :
    ∃ e, stepChar s ')' = .error e := by
  unfold stepChar
  rw [if_neg (by decide), if_pos rfl]
  unfold flushIfPending
  by_cases he : s.ending
  · rw [if_pos he]
    exact ⟨.emptyStack, by simp [ebind_ok, hq]⟩
  · rw [if_neg he]
    cases hft : ParsedNodeData.from_text s.text with
    | error e => exact ⟨e, rfl⟩
    | ok nd => exact ⟨.emptyStack, by rw [hq]; rfl⟩

theorem stepChar_bar_empty_queue (s : ScanState) (hq : s.queue = [])
    (he : s.ending = false) : ∃ e, stepChar s '|' = .error e := by
  unfold stepChar
  rw [if_neg (by decide), if_neg (by decide), if_pos rfl]
  unfold flushIfPending
  rw [if_neg (by rw [he]; exact Bool.false_ne_true)]
  cases hft : ParsedNodeData.from_text s.text with
  | error e => exact ⟨e, rfl⟩
  | ok nd => exact ⟨.emptyStack, by rw [hq]; rfl⟩

/-- Claim C8 (amended): once the scan has emptied the parent stack
(popping even the root sentinel), a subsequent `)` always aborts the
parse with an error, and a subsequent `|` aborts it whenever a node
buffer is pending (`ending` false); however a `|` that arrives with the
stack empty and no pending buffer is silently skipped, so not every
separator on an empty stack is detected. -/
theorem from_text_empty_stack (pre post : List Char) (s : ScanState)
    (hscan : scan ⟨⟨[]⟩, 0, [none], [], true⟩ pre = .ok s) (hq : s.queue = []) :
    (∃ e, ParsedTree.from_text (pre ++ ')' :: post) false = .error e) ∧
    (s.ending = false → ∃ e, ParsedTree.from_text (pre ++ '|' :: post) false = .error e) := by
  constructor
  · obtain ⟨e, he⟩ := stepChar_close_empty_queue s hq
    refine ⟨e, ?_⟩
    unfold ParsedTree.from_text
    show (scan ⟨⟨[]⟩, 0, [none], [], true⟩ (pre ++ ')' :: post)).map (·.tree) = _
    rw [scan_append, hscan, ebind_ok]
    show ((stepChar s ')' >>= fun s1 => scan s1 post).map (·.tree)) = _
    rw [he, ebind_err, emap_err]
  · intro hend
    obtain ⟨e, he⟩ := stepChar_bar_empty_queue s hq hend
    refine ⟨e, ?_⟩
    unfold ParsedTree.from_text
    show (scan ⟨⟨[]⟩, 0, [none], [], true⟩ (pre ++ '|' :: post)).map (·.tree) = _
    rw [scan_append, hscan, ebind_ok]
    show ((stepChar s '|' >>= fun s1 => scan s1 post).map (·.tree)) = _
    rw [he, ebind_err, emap_err]

/-- Claim C8 witness: after scanning `")a"` the stack is empty and a
buffer is pending; appending either `)` or `|` makes the parse fail. -/
theorem from_text_empty_stack_w :
    (∃ e, ParsedTree.from_text (")a".toList ++ ')' :: []) false = .error e) ∧
    (∃ e, ParsedTree.from_text (")a".toList ++ '|' :: []) false = .error e) := by
  have h := from_text_empty_stack (")a".toList) [] ⟨⟨[]⟩, 0, [], "a".toList, false⟩
    (by rfl) (by rfl)
  exact ⟨h.1, h.2 (by rfl)⟩

/-- Claim C8 counterexample to the original claim: scanning `")"` pops
the sentinel and leaves the parent stack empty, yet
`from_text(")|", normalize=False)` — where the `|` is read with the
stack empty — succeeds and returns an empty tree instead of signalling
a structural error. -/
theorem from_text_empty_stack_cex :
    scan ⟨⟨[]⟩, 0, [none], [], true⟩ (")".toList) = .ok ⟨⟨[]⟩, 0, [], [], true⟩ ∧
    ParsedTree.from_text (")|".toList) false = .ok ⟨[]⟩ := by
  constructor
  · rfl
  · rfl

/-! ### Claim C10: deep head search yields only leaves -/

theorem headsAux_deep_leaves (t : ParsedTree) (sem : Bool) :
    ∀ fuel nid ns, t.headsAux sem true fuel nid = .ok ns →
      ∀ n ∈ ns, t.is_leaf n = true := by
  intro fuel
  induction fuel with
  | zero => intro nid ns h; cases h
  | succ f ih =>
    intro nid ns h n hn
    simp only [ParsedTree.headsAux] at h
    have key : ∀ hns : List FlatNode,
        (mapME (fun nd => if true && !(t.is_leaf nd) then t.headsAux sem true f nd.id
          else Except.ok [nd]) hns >>= fun parts => Except.ok parts.flatten) = .ok ns →
        ∀ m ∈ ns, t.is_leaf m = true := by
      intro hns hh m hm
      rcases hmm : mapME (fun nd => if true && !(t.is_leaf nd) then t.headsAux sem true f nd.id
          else Except.ok [nd]) hns with _ | parts
      · rw [hmm, ebind_err] at hh
        cases hh
      · rw [hmm, ebind_ok] at hh
        simp only [Except.ok.injEq] at hh
        subst hh
        obtain ⟨part, hpart, hmpart⟩ := List.mem_flatten.mp hm
        obtain ⟨a, _, hfa⟩ := mapME_ok_mem hmm part hpart
        cases hleaf : t.is_leaf a with
        | true =>
          rw [hleaf] at hfa
          simp only [Bool.not_true, Bool.and_false, Bool.false_eq_true, if_false,
            Except.ok.injEq] at hfa
          subst hfa
          rcases List.mem_singleton.mp hmpart with rfl
          exact hleaf
        | false =>
          rw [hleaf] at hfa
          simp only [Bool.not_false, Bool.and_true, Bool.true_and, if_true] at hfa
          exact ih a.id part hfa m hmpart
    by_cases hcs : (t.children nid).isEmpty = true
    · rw [if_pos hcs] at h
      cases hfind : t.find nid with
      | none =>
        rw [hfind] at h
        cases h
      | some nd =>
        rw [hfind] at h
        exact key [nd] h n hn
    · rw [if_neg hcs] at h
      exact key (headSelect sem (t.children nid)) h n hn

/-- Claim C10: every node yielded by `get_heads` with `deep=True` (for
either head policy) is a leaf. -/
theorem get_heads_deep_yields_leaves (t : ParsedTree) (sem : Bool) (nid : Int)
    (ns : List FlatNode) (h : t.get_heads sem true nid = .ok ns) :
    ∀ n ∈ ns, t.is_leaf n = true :=
  headsAux_deep_leaves t sem t.nodes.length nid ns h

/-- Claim C10 witness: a three-level tree (root, an inner `Head` child,
and a leaf grandchild); the deep head search returns the grandchild,
which is a leaf. -/
theorem get_heads_deep_yields_leaves_w :
    (ParsedTree.mk
        [⟨0, "S".toList, none, ⟨none, some ("S".toList), none⟩⟩,
         ⟨1, "Head:VP".toList, some 0, ⟨some ("Head".toList), some ("VP".toList), none⟩⟩,
         ⟨2, "Head:V:走".toList, some 1,
           ⟨some ("Head".toList), some ("V".toList), some ("走".toList)⟩⟩]).is_leaf
      ⟨2, "Head:V:走".toList, some 1,
        ⟨some ("Head".toList), some ("V".toList), some ("走".toList)⟩⟩ = true := by
  have h := get_heads_deep_yields_leaves
    (ParsedTree.mk
      [⟨0, "S".toList, none, ⟨none, some ("S".toList), none⟩⟩,
       ⟨1, "Head:VP".toList, some 0, ⟨some ("Head".toList), some ("VP".toList), none⟩⟩,
       ⟨2, "Head:V:走".toList, some 1,
         ⟨some ("Head".toList), some ("V".toList), some ("走".toList)⟩⟩])
    true 0
    [⟨2, "Head:V:走".toList, some 1,
      ⟨some ("Head".toList), some ("V".toList), some ("走".toList)⟩⟩]
    (by rfl)
  exact h _ (List.mem_singleton.mpr rfl)

/-! ### Claim C4: subject scan of an `S` clause -/

theorem mapME_congr {f g : α → Except Err β} :
    ∀ l : List α, (∀ a ∈ l, f a = g a) → mapME f l = mapME g l := by
  intro l
  induction l with
  | nil => intro _; rfl
  | cons a rest ih =>
    intro h
    simp only [mapME]
    rw [h a (List.mem_cons_self a rest), ih (fun b hb => h b (List.mem_cons_of_mem _ hb))]

/-- The claim's qualification rule for a subject candidate, stated from
the spec's words: the child's pos starts with `N`, and its role is in
the subject-role set, or is in the neutral-role set with the child's
identifier numerically smaller than the verb head's identifier. -/
def subjectQualifies (subjectRoles neutralRoles : List (List Char))
    (head c : FlatNode) : Bool :=
  (match c.data.pos with
    | some p => strStarts 'N' p
    | none => false) &&
  (roleMem c.data.role subjectRoles ||
    (roleMem c.data.role neutralRoles && decide (c.id < head.id)))

/-- Claim C4: for a node that is neither `NP` nor `S`, `get_subjects`
yields nothing; for an `S` node whose single shallow syntactic head is
a verb, each direct child contributes its heads exactly when it
qualifies per `subjectQualifies` — so a neutral-role `N*` child
qualifies iff its identifier is smaller than the verb head's, while a
subject-role child qualifies regardless of identifier order. -/
theorem mapME_singleton (f : α → Except Err β) (a : α) :
    mapME f [a] = (f a) >>= (fun b => Except.ok [b]) := by
  cases h : f a with
  | error e => simp [mapME, h, ebind_err]
  | ok b => simp [mapME, h, ebind_ok]

/-- Claim C4: for a node that is neither `NP` nor `S`, `get_subjects`
yields nothing; for an `S` node whose single shallow syntactic head is
a verb, each direct child contributes its heads exactly when it
qualifies per `subjectQualifies` — so a neutral-role `N*` child
qualifies iff its identifier is smaller than the verb head's, while a
subject-role child qualifies regardless of identifier order. -/
theorem get_subjects_scan (t : ParsedTree) (subjectRoles neutralRoles : List (List Char))
    (sem deep : Bool) (nid : Int) (root : FlatNode)
    (hfind : t.find nid = some root) :
    (root.data.pos ≠ some ("NP".toList) → root.data.pos ≠ some ("S".toList) →
      t.get_subjects subjectRoles neutralRoles sem deep nid = .ok []) ∧
    (∀ h hp, root.data.pos = some ("S".toList) →
      t.get_heads false false nid = .ok [h] →
      h.data.pos = some hp → strStarts 'V' hp = true →
      (∀ c ∈ t.children nid, c.data.pos.isSome = true) →
      t.get_subjects subjectRoles neutralRoles sem deep nid =
        (mapME (fun c => if subjectQualifies subjectRoles neutralRoles h c then
          t.get_heads sem deep c.id else .ok []) (t.children nid)).map List.flatten) := by
  constructor
  · intro hnp hs
    have hb1 : (root.data.pos == some ("NP".toList)) = false := by
      simp only [beq_eq_false_iff_ne]
      exact hnp
    have hb2 : (root.data.pos == some ("S".toList)) = false := by
      simp only [beq_eq_false_iff_ne]
      exact hs
    simp only [ParsedTree.get_subjects, hfind, ebind_ok, hb1, hb2, Bool.false_eq_true,
      if_false]
  · intro h hp hS hheads hpos hV hposs
    have hb1 : (root.data.pos == some ("NP".toList)) = false := by
      rw [hS]
      decide
    have hb2 : (root.data.pos == some ("S".toList)) = true := by
      rw [hS]
      decide
    have hattr : attrPos h.data.pos = .ok hp := by
      rw [hpos]
      rfl
    have hcong : mapME (fun subroot => do
          let sp ← attrPos subroot.data.pos
          if strStarts 'N' sp &&
              (roleMem subroot.data.role subjectRoles ||
                roleMem subroot.data.role neutralRoles && decide (subroot.id < h.id)) then
            t.get_heads sem deep subroot.id
          else Except.ok []) (t.children nid)
        = mapME (fun c => if subjectQualifies subjectRoles neutralRoles h c then
            t.get_heads sem deep c.id else .ok []) (t.children nid) := by
      refine mapME_congr _ (fun c hc => ?_)
      obtain ⟨p, hpc⟩ := Option.isSome_iff_exists.mp (hposs c hc)
      simp only [hpc, attrPos, ebind_ok, subjectQualifies]
    cases hq : mapME (fun subroot => do
        let sp ← attrPos subroot.data.pos
        if strStarts 'N' sp &&
            (roleMem subroot.data.role subjectRoles ||
              roleMem subroot.data.role neutralRoles && decide (subroot.id < h.id)) then
          t.get_heads sem deep subroot.id
        else Except.ok []) (t.children nid) with
    | error e =>
      have hq2 : mapME (fun c => if subjectQualifies subjectRoles neutralRoles h c then
          t.get_heads sem deep c.id else .ok []) (t.children nid) = .error e :=
        hcong.symm.trans hq
      simp only [ParsedTree.get_subjects, hfind, ebind_ok, hb1, Bool.false_eq_true,
        if_false, hb2, if_true, hheads, mapME_singleton, hattr, hV, eq_self_iff_true,
        hq, ebind_err, hq2, emap_err]
    | ok ls =>
      have hq2 : mapME (fun c => if subjectQualifies subjectRoles neutralRoles h c then
          t.get_heads sem deep c.id else .ok []) (t.children nid) = .ok ls :=
        hcong.symm.trans hq
      simp only [ParsedTree.get_subjects, hfind, ebind_ok, hb1, Bool.false_eq_true,
        if_false, hb2, if_true, hheads, mapME_singleton, hattr, hV, eq_self_iff_true,
        hq, ebind_ok, hq2, emap_ok]
      simp

/-- A concrete clause for exercising the subject scan: an `S` root
(id 0) with a neutral-role `Nab` child before the verb (id 2), the
syntactic `Head` verb (id 5), and a neutral-role `Nab` child after the
verb (id 7). -/
def c4tree : ParsedTree :=
  ⟨[⟨0, "S".toList, none, ⟨none, some ("S".toList), none⟩⟩,
    ⟨2, "theme:Nab:貓".toList, some 0,
      ⟨some ("theme".toList), some ("Nab".toList), some ("貓".toList)⟩⟩,
    ⟨5, "Head:VC:吃".toList, some 0,
      ⟨some ("Head".toList), some ("VC".toList), some ("吃".toList)⟩⟩,
    ⟨7, "theme:Nab:魚".toList, some 0,
      ⟨some ("theme".toList), some ("Nab".toList), some ("魚".toList)⟩⟩]⟩

def c4head : FlatNode :=
  ⟨5, "Head:VC:吃".toList, some 0,
    ⟨some ("Head".toList), some ("VC".toList), some ("吃".toList)⟩⟩

def c4subj : List (List Char) := ["agent".toList]

def c4neut : List (List Char) := ["theme".toList]

/-- Claim C4 witness: the scan characterization applied to `c4tree` (at
the verb leaf, whose pos is neither `NP` nor `S`, subjects are empty;
at the `S` root the output is the qualification-filtered comprehension,
under which the id-2 neutral child qualifies and the id-7 one does
not). -/
theorem get_subjects_scan_w :
    (c4tree.get_subjects c4subj c4neut true true 5 = .ok []) ∧
    (c4tree.get_subjects c4subj c4neut true true 0 =
      (mapME (fun c => if subjectQualifies c4subj c4neut c4head c then
        c4tree.get_heads true true c.id else .ok []) (c4tree.children 0)).map List.flatten) ∧
    subjectQualifies c4subj c4neut c4head
      ⟨2, "theme:Nab:貓".toList, some 0,
        ⟨some ("theme".toList), some ("Nab".toList), some ("貓".toList)⟩⟩ = true ∧
    subjectQualifies c4subj c4neut c4head
      ⟨7, "theme:Nab:魚".toList, some 0,
        ⟨some ("theme".toList), some ("Nab".toList), some ("魚".toList)⟩⟩ = false := by
  refine ⟨?_, ?_, by decide, by decide⟩
  · exact (get_subjects_scan c4tree c4subj c4neut true true 5
      ⟨5, "Head:VC:吃".toList, some 0,
        ⟨some ("Head".toList), some ("VC".toList), some ("吃".toList)⟩⟩
      (by rfl)).1 (by decide) (by decide)
  · exact (get_subjects_scan c4tree c4subj c4neut true true 0
      ⟨0, "S".toList, none, ⟨none, some ("S".toList), none⟩⟩
      (by rfl)).2 c4head ("VC".toList) (by rfl) (by rfl) (by rfl) (by rfl) (by decide)

/-! ### Well-formed trees and termination of the fuelled traversals -/

/-- Every node's parent is either absent or one of the identifiers seen
earlier in creation order (`seen` accumulates the ids of the processed
prefix).  This is an invariant of every tree built through
`create_node`, which requires the parent to exist at creation time. -/
def parentsEarlier : List FlatNode → List Int → Bool
  | [], _ => true
  | nd :: rest, seen =>
    (match nd.parent with
     | none => true
     | some p => seen.contains p) && parentsEarlier rest (nd.id :: seen)

/-- A well-formed tree: unique identifiers, and every parent pointer
refers to an earlier-created node. -/
def WellFormed (t : ParsedTree) : Prop :=
  (t.nodes.map (·.id)).Nodup ∧ parentsEarlier t.nodes [] = true

instance (t : ParsedTree) : Decidable (WellFormed t) := by
  unfold WellFormed
  infer_instance

/-- Length of the node-list suffix starting at the node with id `k`
(0 when absent): the recursion measure for the traversals, which only
ever step from a node to one of its children, i.e. strictly later in
creation order. -/
def afterL (l : List FlatNode) (k : Int) : Nat :=
  (l.dropWhile (fun nd => !(nd.id == k))).length

theorem afterL_pos (l : List FlatNode) (k : Int) (h : k ∈ l.map (·.id)) :
    0 < afterL l k := by
  induction l with
  | nil => simp at h
  | cons nd rest ih =>
    unfold afterL
    by_cases hk : nd.id = k
    · rw [List.dropWhile_cons, show (!(nd.id == k)) = false by simp [hk]]
      simp
    · rw [List.dropWhile_cons, show (!(nd.id == k)) = true by simp [hk]]
      refine ih ?_
      simp only [List.map_cons, List.mem_cons] at h
      rcases h with h | h
      · exact absurd h.symm hk
      · exact h

theorem dropWhile_length_le (p : FlatNode → Bool) :
    ∀ l : List FlatNode, (l.dropWhile p).length ≤ l.length := by
  intro l
  induction l with
  | nil => simp
  | cons nd rest ih =>
    rw [List.dropWhile_cons]
    by_cases hp : p nd = true
    · rw [if_pos hp]
      simp only [List.length_cons]
      omega
    · rw [if_neg hp]

theorem afterL_le_length (l : List FlatNode) (k : Int) : afterL l k ≤ l.length :=
  dropWhile_length_le _ l

theorem afterL_cons_ne (nd : FlatNode) (rest : List FlatNode) (k : Int) (h : nd.id ≠ k) :
    afterL (nd :: rest) k = afterL rest k := by
  unfold afterL
  rw [List.dropWhile_cons, show (!(nd.id == k)) = true by simp [h], if_pos rfl]

theorem afterL_cons_self (nd : FlatNode) (rest : List FlatNode) :
    afterL (nd :: rest) nd.id = rest.length + 1 := by
  unfold afterL
  rw [List.dropWhile_cons, show (!(nd.id == nd.id)) = false by simp]
  simp

theorem parentsEarlier_parent_lt :
    ∀ (l : List FlatNode) (seen : List Int), parentsEarlier l seen = true →
      (l.map (·.id)).Nodup → (∀ i ∈ seen, i ∉ l.map (·.id)) →
      ∀ c ∈ l, ∀ pk, c.parent = some pk → pk ∈ l.map (·.id) →
        afterL l c.id < afterL l pk := by
  intro l
  induction l with
  | nil => intro seen _ _ _ c hc; simp at hc
  | cons nd rest ih =>
    intro seen hpe hnodup hdisj c hc pk hcp hpk
    simp only [parentsEarlier, Bool.and_eq_true] at hpe
    obtain ⟨hhead, htail⟩ := hpe
    simp only [List.map_cons, List.nodup_cons] at hnodup
    obtain ⟨hndid, hrestd⟩ := hnodup
    rcases List.mem_cons.mp hc with rfl | hcrest
    · -- c is the head node: its parent is in `seen`, hence outside the list
      rw [hcp] at hhead
      have hpseen : pk ∈ seen := List.elem_iff.mp hhead
      exact absurd hpk (by
        intro hmem
        exact hdisj pk hpseen hmem)
    · have hcid : c.id ≠ nd.id := by
        intro heq
        exact hndid (heq ▸ List.mem_map_of_mem (·.id) hcrest)
      by_cases hpnd : pk = nd.id
      · subst hpnd
        rw [afterL_cons_self, afterL_cons_ne nd rest c.id (Ne.symm hcid)]
        have := afterL_le_length rest c.id
        omega
      · have hpkrest : pk ∈ rest.map (·.id) := by
          simp only [List.map_cons, List.mem_cons] at hpk
          rcases hpk with h | h
          · exact absurd h hpnd
          · exact h
        have hlt := ih (nd.id :: seen) htail hrestd
          (by
            intro i hi
            rcases List.mem_cons.mp hi with rfl | hiseen
            · exact hndid
            · intro hmem
              exact hdisj i hiseen (List.mem_cons_of_mem _ hmem))
          c hcrest pk hcp hpkrest
        rw [afterL_cons_ne nd rest c.id (Ne.symm hcid),
          afterL_cons_ne nd rest pk (Ne.symm hpnd)]
        exact hlt

theorem children_after_lt (t : ParsedTree) (hwf : WellFormed t) (nid : Int)
    (c : FlatNode) (hc : c ∈ t.children nid) :
    afterL t.nodes c.id < afterL t.nodes nid := by
  have hcm : c ∈ t.nodes ∧ (c.parent == some nid) = true := List.mem_filter.mp hc
  have hcp : c.parent = some nid := by simpa using hcm.2
  have hpk : nid ∈ t.nodes.map (·.id) := by
    -- the parent of `c` occurs among the node ids by `parentsEarlier`
    -- (with an empty initial `seen`)
    clear hc
    have : ∀ (l : List FlatNode) (seen : List Int), parentsEarlier l seen = true →
        ∀ c ∈ l, ∀ pk, c.parent = some pk → pk ∈ seen ∨ pk ∈ l.map (·.id) := by
      intro l
      induction l with
      | nil => intro seen _ c hc; simp at hc
      | cons nd rest ihl =>
        intro seen hpe c hc pk hcp2
        simp only [parentsEarlier, Bool.and_eq_true] at hpe
        rcases List.mem_cons.mp hc with rfl | hcrest
        · rw [hcp2] at hpe
          exact Or.inl (List.elem_iff.mp hpe.1)
        · rcases ihl (nd.id :: seen) hpe.2 c hcrest pk hcp2 with h | h
          · rcases List.mem_cons.mp h with rfl | h2
            · exact Or.inr (by simp)
            · exact Or.inl h2
          · exact Or.inr (List.mem_cons_of_mem _ h)
    rcases this t.nodes [] hwf.2 c hcm.1 nid hcp with h | h
    · simp at h
    · exact h
  exact parentsEarlier_parent_lt t.nodes [] hwf.2 hwf.1 (by simp) c hcm.1 nid hcp hpk

theorem find_of_mem_ids (t : ParsedTree) (nid : Int) (h : nid ∈ t.ids) :
    ∃ nd, t.find nid = some nd ∧ nd ∈ t.nodes ∧ nd.id = nid := by
  obtain ⟨nd0, hmem, hid⟩ := List.mem_map.mp h
  have hsome : (t.nodes.find? (fun nd => nd.id == nid)).isSome := by
    rw [List.find?_isSome]
    exact ⟨nd0, hmem, by simp [hid]⟩
  obtain ⟨nd, hnd⟩ := Option.isSome_iff_exists.mp hsome
  refine ⟨nd, hnd, List.mem_of_find?_eq_some hnd, ?_⟩
  have := List.find?_some hnd
  simpa using this

theorem headSelect_subset (sem : Bool) (cs : List FlatNode) :
    ∀ x ∈ headSelect sem cs, x ∈ cs := by
  intro x hx
  unfold headSelect at hx
  dsimp only at hx
  split_ifs at hx
  all_goals
    first
      | exact List.mem_of_mem_filter hx
      | simp at hx
      | (revert hx
         cases hg : cs.getLast? with
         | none =>
           intro hx
           simp at hx
         | some c =>
           intro hx
           rcases List.mem_singleton.mp hx with rfl
           exact List.mem_of_mem_getLast? hg)

theorem mapME_ok_exists {f : α → Except Err β} {P : β → Prop} :
    ∀ l : List α, (∀ a ∈ l, ∃ b, f a = .ok b ∧ P b) →
      ∃ bs, mapME f l = .ok bs ∧ ∀ b ∈ bs, P b := by
  intro l
  induction l with
  | nil => intro _; exact ⟨[], rfl, by simp⟩
  | cons a rest ih =>
    intro h
    obtain ⟨b, hb, hPb⟩ := h a (List.mem_cons_self a rest)
    obtain ⟨bs, hbs, hPbs⟩ := ih (fun x hx => h x (List.mem_cons_of_mem _ hx))
    refine ⟨b :: bs, ?_, ?_⟩
    · simp only [mapME, hb, ebind_ok, hbs]
    · intro x hx
      rcases List.mem_cons.mp hx with rfl | hx
      · exact hPb
      · exact hPbs x hx

theorem headsAux_ok (t : ParsedTree) (hwf : WellFormed t) (sem : Bool) :
    ∀ fuel dp nid, nid ∈ t.ids → afterL t.nodes nid ≤ fuel →
      ∃ ns, t.headsAux sem dp fuel nid = .ok ns ∧ ∀ n ∈ ns, n ∈ t.nodes := by
  intro fuel
  induction fuel with
  | zero =>
    intro dp nid hmem hle
    have := afterL_pos t.nodes nid hmem
    omega
  | succ f ih =>
    intro dp nid hmem hle
    by_cases hcs : (t.children nid).isEmpty = true
    · obtain ⟨nd, hfind, hndmem, hndid⟩ := find_of_mem_ids t nid hmem
      have hleaf : t.is_leaf nd = true := by
        unfold ParsedTree.is_leaf
        rw [hndid]
        exact hcs
      refine ⟨[nd], ?_, ?_⟩
      · simp only [ParsedTree.headsAux, hcs, eq_self_iff_true, if_true, hfind, ebind_ok,
          mapME, hleaf, Bool.not_true, Bool.and_false, Bool.false_eq_true, if_false]
        rfl
      · intro n hn
        rcases List.mem_singleton.mp hn with rfl
        exact hndmem
    · have hcsf : (t.children nid).isEmpty = false := Bool.eq_false_iff.mpr hcs
      have hsub := headSelect_subset sem (t.children nid)
      have hstep : ∀ a ∈ headSelect sem (t.children nid),
          ∃ bs, (if dp && !(t.is_leaf a) then t.headsAux sem true f a.id
            else Except.ok [a]) = .ok bs ∧ ∀ b ∈ bs, b ∈ t.nodes := by
        intro a ha
        by_cases hcond : (dp && !(t.is_leaf a)) = true
        · rw [if_pos hcond]
          have hachild := hsub a ha
          have hamem : a ∈ t.nodes := List.mem_of_mem_filter hachild
          have haid : a.id ∈ t.ids := List.mem_map_of_mem _ hamem
          have hlt := children_after_lt t hwf nid a hachild
          exact ih true a.id haid (by omega)
        · rw [if_neg hcond]
          refine ⟨[a], rfl, ?_⟩
          intro b hb
          rw [List.mem_singleton.mp hb]
          exact List.mem_of_mem_filter (hsub a ha)
      obtain ⟨parts, hparts, hpartsP⟩ := mapME_ok_exists _ hstep
      refine ⟨parts.flatten, ?_, ?_⟩
      · simp only [ParsedTree.headsAux, hcsf, Bool.false_eq_true, if_false, ebind_ok,
          hparts]
      · intro n hn
        obtain ⟨p, hp, hnp⟩ := List.mem_flatten.mp hn
        exact hpartsP p hp n hnp

theorem get_heads_ok (t : ParsedTree) (hwf : WellFormed t) (sem dp : Bool) (nid : Int)
    (hmem : nid ∈ t.ids) :
    ∃ ns, t.get_heads sem dp nid = .ok ns ∧ ∀ n ∈ ns, n ∈ t.nodes :=
  headsAux_ok t hwf sem t.nodes.length dp nid hmem (afterL_le_length t.nodes nid)

theorem relAux_ok (t : ParsedTree) (hwf : WellFormed t) (sem : Bool) :
    ∀ fuel nid, nid ∈ t.ids → afterL t.nodes nid ≤ fuel →
      ∃ rs, t.relAux sem fuel nid = .ok rs := by
  intro fuel
  induction fuel with
  | zero =>
    intro nid hmem hle
    have := afterL_pos t.nodes nid hmem
    omega
  | succ f ih =>
    intro nid hmem hle
    obtain ⟨hcns, hhc, _⟩ := get_heads_ok t hwf sem false nid hmem
    obtain ⟨hds, hhds, _⟩ := get_heads_ok t hwf sem true nid hmem
    have htails : ∀ h ∈ hds, ∃ x, (do
        let tailParts ← mapME (fun tl =>
          if tl.data.role != some ("Head".toList) &&
              !(hcns.any (fun hc => hc.id == tl.id)) then
            if t.is_leaf tl then Except.ok [ParsedRelation.mk h tl tl]
            else (t.get_heads sem true tl.id).map (fun ns =>
              ns.map (fun nd => ParsedRelation.mk h nd tl))
          else Except.ok []) (t.children nid)
        Except.ok tailParts.flatten) = Except.ok x ∧ True := by
      intro h _
      have hinner : ∀ tl ∈ t.children nid, ∃ y, (if tl.data.role != some ("Head".toList) &&
            !(hcns.any (fun hc => hc.id == tl.id)) then
          if t.is_leaf tl then Except.ok [ParsedRelation.mk h tl tl]
          else (t.get_heads sem true tl.id).map (fun ns =>
            ns.map (fun nd => ParsedRelation.mk h nd tl))
          else Except.ok []) = Except.ok y ∧ True := by
        intro tl htl
        by_cases hcond : (tl.data.role != some ("Head".toList) &&
            !(hcns.any (fun hc => hc.id == tl.id))) = true
        · rw [if_pos hcond]
          by_cases hleaf : t.is_leaf tl = true
          · rw [if_pos hleaf]
            exact ⟨_, rfl, trivial⟩
          · rw [if_neg hleaf]
            have htlmem : tl ∈ t.nodes := List.mem_of_mem_filter htl
            have htlid : tl.id ∈ t.ids := List.mem_map_of_mem _ htlmem
            obtain ⟨ns, hns, _⟩ := get_heads_ok t hwf sem true tl.id htlid
            exact ⟨_, by rw [hns]; rfl, trivial⟩
        · rw [if_neg hcond]
          exact ⟨[], rfl, trivial⟩
      obtain ⟨tailParts, htp, _⟩ := mapME_ok_exists _ hinner
      exact ⟨tailParts.flatten, by rw [htp]; rfl, trivial⟩
    obtain ⟨parts, hparts, _⟩ := mapME_ok_exists _ htails
    have hrecs : ∀ c ∈ t.children nid, ∃ z, t.relAux sem f c.id = .ok z ∧ True := by
      intro c hc
      have hcmem : c ∈ t.nodes := List.mem_of_mem_filter hc
      have hcid : c.id ∈ t.ids := List.mem_map_of_mem _ hcmem
      have hlt := children_after_lt t hwf nid c hc
      obtain ⟨z, hz⟩ := ih c.id hcid (by omega)
      exact ⟨z, hz, trivial⟩
    obtain ⟨recParts, hrec, _⟩ := mapME_ok_exists _ hrecs
    refine ⟨parts.flatten ++ recParts.flatten, ?_⟩
    simp only [ParsedTree.relAux, ParsedTree.get_heads] at *
    simp only [ParsedTree.relAux, hhc, ebind_ok, hhds, hparts, hrec]

theorem get_relations_ok (t : ParsedTree) (hwf : WellFormed t) (sem : Bool) (nid : Int)
    (hmem : nid ∈ t.ids) : ∃ rs, t.get_relations sem nid = .ok rs :=
  relAux_ok t hwf sem t.nodes.length nid hmem (afterL_le_length t.nodes nid)

theorem get_subjects_ok (t : ParsedTree) (hwf : WellFormed t)
    (hposall : ∀ n ∈ t.nodes, n.data.pos.isSome = true)
    (subjectRoles neutralRoles : List (List Char)) (sem deep : Bool) (nid : Int)
    (hmem : nid ∈ t.ids) :
    ∃ ss, t.get_subjects subjectRoles neutralRoles sem deep nid = .ok ss := by
  obtain ⟨root, hfind, hrootmem, hrootid⟩ := find_of_mem_ids t nid hmem
  by_cases hnp : (root.data.pos == some ("NP".toList)) = true
  · obtain ⟨ns, hns, _⟩ := get_heads_ok t hwf sem deep nid hmem
    refine ⟨ns, ?_⟩
    simp only [ParsedTree.get_subjects, hfind, ebind_ok, hnp, if_true, hns]
  · have hnpf : (root.data.pos == some ("NP".toList)) = false := Bool.eq_false_iff.mpr hnp
    by_cases hS : (root.data.pos == some ("S".toList)) = true
    · obtain ⟨hds, hhds, hhdsmem⟩ := get_heads_ok t hwf false false nid hmem
      have hstep : ∀ h ∈ hds, ∃ x, (do
          let hp ← attrPos h.data.pos
          if strStarts 'V' hp then do
            let subParts ← mapME (fun subroot => do
              let sp ← attrPos subroot.data.pos
              if strStarts 'N' sp &&
                  (roleMem subroot.data.role subjectRoles ||
                    roleMem subroot.data.role neutralRoles &&
                      decide (subroot.id < h.id)) then
                t.get_heads sem deep subroot.id
              else Except.ok []) (t.children nid)
            Except.ok subParts.flatten
          else Except.ok []) = Except.ok x ∧ True := by
        intro h hh
        obtain ⟨hp, hhp⟩ := Option.isSome_iff_exists.mp (hposall h (hhdsmem h hh))
        have hattr : attrPos h.data.pos = .ok hp := by
          rw [hhp]
          rfl
        by_cases hV : strStarts 'V' hp = true
        · have hinner : ∀ subroot ∈ t.children nid, ∃ y, (do
              let sp ← attrPos subroot.data.pos
              if strStarts 'N' sp &&
                  (roleMem subroot.data.role subjectRoles ||
                    roleMem subroot.data.role neutralRoles &&
                      decide (subroot.id < h.id)) then
                t.get_heads sem deep subroot.id
              else Except.ok []) = Except.ok y ∧ True := by
            intro subroot hsr
            have hsrmem : subroot ∈ t.nodes := List.mem_of_mem_filter hsr
            obtain ⟨sp, hsp⟩ := Option.isSome_iff_exists.mp (hposall subroot hsrmem)
            have hattr2 : attrPos subroot.data.pos = .ok sp := by
              rw [hsp]
              rfl
            by_cases hcond : (strStarts 'N' sp &&
                (roleMem subroot.data.role subjectRoles ||
                  roleMem subroot.data.role neutralRoles &&
                    decide (subroot.id < h.id))) = true
            · have hsrid : subroot.id ∈ t.ids := List.mem_map_of_mem _ hsrmem
              obtain ⟨ys, hys, _⟩ := get_heads_ok t hwf sem deep subroot.id hsrid
              refine ⟨ys, ?_, trivial⟩
              simp only [hattr2, ebind_ok, hcond, eq_self_iff_true, if_true, hys]
            · have hcondf := Bool.eq_false_iff.mpr hcond
              refine ⟨[], ?_, trivial⟩
              simp only [hattr2, ebind_ok, hcondf, Bool.false_eq_true, if_false]
          obtain ⟨subParts, hsubp, _⟩ := mapME_ok_exists _ hinner
          refine ⟨subParts.flatten, ?_, trivial⟩
          simp only [hattr, ebind_ok, hV, eq_self_iff_true, if_true, hsubp]
        · have hVf := Bool.eq_false_iff.mpr hV
          refine ⟨[], ?_, trivial⟩
          simp only [hattr, ebind_ok, hVf, Bool.false_eq_true, if_false]
      obtain ⟨parts, hparts, _⟩ := mapME_ok_exists _ hstep
      refine ⟨parts.flatten, ?_⟩
      simp only [ParsedTree.get_subjects, hfind, ebind_ok, hnpf, Bool.false_eq_true,
        if_false, hS, if_true, hhds, hparts]
    · have hSf : (root.data.pos == some ("S".toList)) = false := Bool.eq_false_iff.mpr hS
      refine ⟨[], ?_⟩
      simp only [ParsedTree.get_subjects, hfind, ebind_ok, hnpf, hSf, Bool.false_eq_true,
        if_false]

/-- Claim C9 (amended): on a well-formed non-empty tree, for every node
id in it and every flag combination, `get_heads` and `get_relations`
always complete without an error (missing head candidates fall back to
the last child rather than signalling); `get_subjects` also completes
provided every node's pos field is present — with an absent pos it
raises the embedded `AttributeError` instead. -/
theorem traversals_total (t : ParsedTree) (hwf : WellFormed t) (nid : Int)
    (hmem : nid ∈ t.ids) (sem deep : Bool) :
    (∃ ns, t.get_heads sem deep nid = .ok ns) ∧
    (∃ rs, t.get_relations sem nid = .ok rs) ∧
    ((∀ n ∈ t.nodes, n.data.pos.isSome = true) →
      ∀ subjectRoles neutralRoles,
        ∃ ss, t.get_subjects subjectRoles neutralRoles sem deep nid = .ok ss) := by
  refine ⟨?_, get_relations_ok t hwf sem nid hmem, ?_⟩
  · obtain ⟨ns, hns, _⟩ := get_heads_ok t hwf sem deep nid hmem
    exact ⟨ns, hns⟩
  · intro hposall subjectRoles neutralRoles
    exact get_subjects_ok t hwf hposall subjectRoles neutralRoles sem deep nid hmem

/-- A well-formed two-node tree whose `Head` child has no pos field, as
the dict codec permits. -/
def c9tree : ParsedTree :=
  ⟨[⟨0, "S".toList, none, ⟨none, some ("S".toList), none⟩⟩,
    ⟨1, "Head".toList, some 0, ⟨some ("Head".toList), none, none⟩⟩]⟩

/-- Claim C9 counterexample to the original claim: on a well-formed
non-empty tree containing a node with an absent pos, `get_subjects`
does raise an error (`None.startswith` — an `AttributeError`), so the
traversals are not unconditionally error-free. -/
theorem get_subjects_attr_error_cex :
    WellFormed c9tree ∧ (0 : Int) ∈ c9tree.ids ∧
    c9tree.get_subjects [] [] true true 0 = .error .attrNone := by
  refine ⟨by decide, by decide, by rfl⟩

/-- The tree of the worked example, with every pos present. -/
def c9good : ParsedTree :=
  ⟨[⟨0, "S".toList, none, ⟨none, some ("S".toList), none⟩⟩,
    ⟨1, "Head:Nab:中文字".toList, some 0,
      ⟨some ("Head".toList), some ("Nab".toList), some ("中文字".toList)⟩⟩,
    ⟨2, "particle:Td:耶".toList, some 0,
      ⟨some ("particle".toList), some ("Td".toList), some ("耶".toList)⟩⟩]⟩

/-- Claim C9 witness: the totality theorem applied to a concrete
well-formed tree with all pos fields present. -/
theorem traversals_total_w :
    (∃ ns, c9good.get_heads true true 0 = .ok ns) ∧
    (∃ rs, c9good.get_relations true 0 = .ok rs) ∧
    (∃ ss, c9good.get_subjects [] [] true true 0 = .ok ss) := by
  have h := traversals_total c9good (by decide) 0 (by decide) true true
  exact ⟨h.1, h.2.1, h.2.2 (by decide) [] []⟩

/-! ### Claim C1: text round-trip -/

/-- No structural character: the node-text characters the scanner simply
accumulates. -/
def noSpecial (t : List Char) : Bool :=
  t.all (fun c => !(c == '(') && !(c == ')') && !(c == '|'))

/-- A usable node text: non-empty, free of structural characters, and
faithfully re-rendered by the node-data codec. -/
def textOk (t : List Char) : Bool :=
  !t.isEmpty && noSpecial t &&
    (match ParsedNodeData.from_text t with
     | .ok d => d.to_text == t
     | .error _ => false)

/-- The node data of a buffer, defaulting when parsing fails (only used
where `textOk` guarantees success). -/
def dataOfText (t : List Char) : ParsedNodeData :=
  match ParsedNodeData.from_text t with
  | .ok d => d
  | .error _ => ⟨none, none, none⟩

mutual
inductive RawTree where
  | mk (text : List Char) (children : RawForest)
deriving DecidableEq
inductive RawForest where
  | nil
  | cons (head : RawTree) (tail : RawForest)
deriving DecidableEq
end

mutual
def RawTree.sizeR : RawTree → Nat
  | .mk _ f => 1 + f.sizeF
def RawForest.sizeF : RawForest → Nat
  | .nil => 0
  | .cons c f => c.sizeR + f.sizeF
end

mutual
/-- The bracketed text of a tree per the grammar
`tree := node ('(' tree ('|' tree)* ')')?`. -/
def RawTree.render : RawTree → List Char
  | .mk t .nil => t
  | .mk t (.cons c f) =>
    t ++ '(' :: (joinChar '|' (RawForest.renderList (.cons c f)) ++ [')'])
def RawForest.renderList : RawForest → List (List Char)
  | .nil => []
  | .cons c f => c.render :: f.renderList
end

mutual
def RawTree.wf : RawTree → Bool
  | .mk t f => textOk t && f.wfF
def RawForest.wfF : RawForest → Bool
  | .nil => true
  | .cons c f => c.wf && f.wfF
end

mutual
/-- The flat node list the parser builds for a subtree whose root gets
id `n` and parent `par` (depth-first, ids consecutive). -/
def RawTree.flatten : RawTree → Int → Option Int → List FlatNode
  | .mk t f, n, par => ⟨n, t, par, dataOfText t⟩ :: RawForest.flattenF f (n + 1) (some n)
def RawForest.flattenF : RawForest → Int → Option Int → List FlatNode
  | .nil, _, _ => []
  | .cons c f, n, par =>
    RawTree.flatten c n par ++ RawForest.flattenF f (n + (c.sizeR : Int)) par
end

def RawTree.isBranch : RawTree → Bool
  | .mk _ .nil => false
  | .mk _ (.cons _ _) => true

def RawTree.text : RawTree → List Char
  | .mk t _ => t

/-- The flat nodes of the roots of a forest's trees (the immediate
children of the forest's common parent). -/
def RawForest.headNodesF : RawForest → Int → Option Int → List FlatNode
  | .nil, _, _ => []
  | .cons c f, n, par =>
    ⟨n, c.text, par, dataOfText c.text⟩ :: RawForest.headNodesF f (n + (c.sizeR : Int)) par

theorem textOk_parts (t : List Char) (h : textOk t = true) :
    t ≠ [] ∧ noSpecial t = true ∧
      ParsedNodeData.from_text t = .ok (dataOfText t) ∧ (dataOfText t).to_text = t := by
  unfold textOk at h
  simp only [Bool.and_eq_true] at h
  obtain ⟨⟨h1, h2⟩, h3⟩ := h
  refine ⟨by simpa using h1, h2, ?_, ?_⟩
  · unfold dataOfText
    cases hft : ParsedNodeData.from_text t with
    | ok d => rfl
    | error e =>
      rw [hft] at h3
      cases h3
  · unfold dataOfText
    cases hft : ParsedNodeData.from_text t with
    | ok d =>
      rw [hft] at h3
      simpa using h3
    | error e =>
      rw [hft] at h3
      cases h3

theorem scan_text (tx : List Char) :
    noSpecial tx = true → tx ≠ [] →
    ∀ (T : ParsedTree) (n : Int) (q : List (Option Int)) (buf : List Char) (e : Bool),
      scan ⟨T, n, q, buf, e⟩ tx = .ok ⟨T, n, q, buf ++ tx, false⟩ := by
  induction tx with
  | nil =>
    intro _ hne
    cases hne rfl
  | cons c rest ih =>
    intro hns _ T n q buf e
    simp only [noSpecial, List.all_cons, Bool.and_eq_true] at hns
    obtain ⟨⟨⟨h1, h2⟩, h3⟩, h4⟩ := hns
    have hc1 : c ≠ '(' := by simpa using h1
    have hc2 : c ≠ ')' := by simpa using h2
    have hc3 : c ≠ '|' := by simpa using h3
    have hstep : stepChar ⟨T, n, q, buf, e⟩ c = .ok ⟨T, n, q, buf ++ [c], false⟩ := by
      unfold stepChar
      rw [if_neg hc1, if_neg hc2, if_neg hc3]
    cases rest with
    | nil =>
      simp only [scan, hstep, ebind_ok]
    | cons c2 rest2 =>
      simp only [scan, hstep, ebind_ok]
      have := ih (by simpa [noSpecial] using h4) (by simp) T n q (buf ++ [c]) false
      simp only [scan] at this
      rw [this]
      simp

/-- All identifiers of a tree are below the running counter. -/
def IdsBelow (T : ParsedTree) (n : Int) : Prop := ∀ i ∈ T.ids, i < n

/-- The top of the parent stack is usable: the sentinel only while the
tree has no root yet, otherwise an existing node id. -/
def GoodTop (T : ParsedTree) (q : List (Option Int)) : Prop :=
  match q.getLast? with
  | none => False
  | some none => ∀ nd ∈ T.nodes, nd.parent ≠ none
  | some (some p) => p ∈ T.ids

theorem create_node_root_ok (T : ParsedTree) (tag : List Char) (n : Int)
    (d : ParsedNodeData) (hfresh : n ∉ T.ids) (hroot : ∀ nd ∈ T.nodes, nd.parent ≠ none) :
    T.create_node tag n none d = .ok ⟨T.nodes ++ [⟨n, tag, none, d⟩]⟩ := by
  unfold ParsedTree.create_node
  rw [if_neg (by intro hx; exact hfresh (List.elem_iff.mp hx))]
  have : T.nodes.any (fun nd => nd.parent.isNone) = false := by
    rw [List.any_eq_false]
    intro nd hnd
    simp only [Option.isNone_iff_eq_none]
    exact hroot nd hnd
  rw [this]
  rfl

theorem create_node_child_ok (T : ParsedTree) (tag : List Char) (n p : Int)
    (d : ParsedNodeData) (hfresh : n ∉ T.ids) (hp : p ∈ T.ids) :
    T.create_node tag n (some p) d = .ok ⟨T.nodes ++ [⟨n, tag, some p, d⟩]⟩ := by
  unfold ParsedTree.create_node
  rw [if_neg (by intro hx; exact hfresh (List.elem_iff.mp hx))]
  have hc : T.ids.contains p = true := List.elem_iff.mpr hp
  simp [hc, hp]

mutual
theorem flatten_ids (rt : RawTree) (n : Int) (par : Option Int) :
    ∀ nd ∈ rt.flatten n par, n ≤ nd.id ∧ nd.id < n + (rt.sizeR : Int) := by
  cases rt with
  | mk t f =>
    intro nd hnd
    simp only [RawTree.flatten, List.mem_cons] at hnd
    have hsz : ((RawTree.mk t f).sizeR : Int) = 1 + (f.sizeF : Int) := by
      simp [RawTree.sizeR]
    rcases hnd with rfl | hnd
    · dsimp only
      constructor
      · exact le_refl _
      · rw [hsz]
        have : (0 : Int) ≤ (f.sizeF : Int) := Int.ofNat_nonneg _
        omega
    · have := flattenF_ids f (n + 1) (some n) nd hnd
      rw [hsz]
      omega
theorem flattenF_ids (f : RawForest) (n : Int) (par : Option Int) :
    ∀ nd ∈ f.flattenF n par, n ≤ nd.id ∧ nd.id < n + (f.sizeF : Int) := by
  cases f with
  | nil =>
    intro nd hnd
    simp [RawForest.flattenF] at hnd
  | cons c f2 =>
    intro nd hnd
    simp only [RawForest.flattenF, List.mem_append] at hnd
    have hsz : ((RawForest.cons c f2).sizeF : Int) = (c.sizeR : Int) + (f2.sizeF : Int) := by
      simp [RawForest.sizeF]
    rcases hnd with hnd | hnd
    · have := flatten_ids c n par nd hnd
      have h2 : (0 : Int) ≤ (f2.sizeF : Int) := Int.ofNat_nonneg _
      rw [hsz]
      omega
    · have := flattenF_ids f2 (n + (c.sizeR : Int)) par nd hnd
      have h2 : (0 : Int) ≤ (c.sizeR : Int) := Int.ofNat_nonneg _
      rw [hsz]
      omega
end

def topPar (q : List (Option Int)) : Option Int := q.getLast?.join

theorem not_mem_of_idsBelow (T : ParsedTree) (n : Int) (hids : IdsBelow T n) :
    n ∉ T.ids := by
  intro hmem
  exact absurd (hids n hmem) (lt_irrefl n)

theorem stepChar_open (T : ParsedTree) (n : Int) (q : List (Option Int)) (t : List Char)
    (e : Bool) (htOk : textOk t = true) (hids : IdsBelow T n) (hgt : GoodTop T q) :
    stepChar ⟨T, n, q, t, e⟩ '(' =
      .ok ⟨⟨T.nodes ++ [⟨n, t, topPar q, dataOfText t⟩]⟩, n + 1, q ++ [some n], [], e⟩ := by
  obtain ⟨hne, hns, hft, hrt⟩ := textOk_parts t htOk
  unfold stepChar
  rw [if_pos rfl]
  show (ParsedNodeData.from_text t >>= fun nd => _) = _
  rw [hft, ebind_ok]
  unfold GoodTop at hgt
  cases hq : q.getLast? with
  | none =>
    rw [hq] at hgt
    exact hgt.elim
  | some par =>
    rw [hq] at hgt
    cases par with
    | none =>
      dsimp only at hgt ⊢
      rw [create_node_root_ok T t n (dataOfText t) (not_mem_of_idsBelow T n hids) hgt,
        ebind_ok]
      simp [topPar, hq]
    | some p =>
      dsimp only at hgt ⊢
      rw [create_node_child_ok T t n p (dataOfText t) (not_mem_of_idsBelow T n hids) hgt,
        ebind_ok]
      simp [topPar, hq]

theorem flush_pending (T : ParsedTree) (n : Int) (q0 : List (Option Int)) (p : Int)
    (t : List Char) (htOk : textOk t = true) (hids : IdsBelow T n) (hp : p ∈ T.ids) :
    flushIfPending ⟨T, n, q0 ++ [some p], t, false⟩ =
      .ok ⟨⟨T.nodes ++ [⟨n, t, some p, dataOfText t⟩]⟩, n + 1, q0 ++ [some p], t, false⟩ := by
  obtain ⟨hne, hns, hft, hrt⟩ := textOk_parts t htOk
  unfold flushIfPending
  rw [if_neg (by simp)]
  show (ParsedNodeData.from_text t >>= fun nd => _) = _
  rw [hft, ebind_ok, List.getLast?_concat]
  show (T.create_node t n (some p) (dataOfText t) >>= fun tr => _) = _
  rw [create_node_child_ok T t n p (dataOfText t) (not_mem_of_idsBelow T n hids) hp,
    ebind_ok]

theorem stepChar_bar_flush (T : ParsedTree) (n : Int) (q0 : List (Option Int)) (p : Int)
    (t : List Char) (htOk : textOk t = true) (hids : IdsBelow T n) (hp : p ∈ T.ids) :
    stepChar ⟨T, n, q0 ++ [some p], t, false⟩ '|' =
      .ok ⟨⟨T.nodes ++ [⟨n, t, some p, dataOfText t⟩]⟩, n + 1, q0 ++ [some p], [], true⟩ := by
  unfold stepChar
  rw [if_neg (by decide), if_neg (by decide), if_pos rfl,
    flush_pending T n q0 p t htOk hids hp, ebind_ok]

theorem stepChar_close_flush (T : ParsedTree) (n : Int) (q0 : List (Option Int)) (p : Int)
    (t : List Char) (htOk : textOk t = true) (hids : IdsBelow T n) (hp : p ∈ T.ids) :
    stepChar ⟨T, n, q0 ++ [some p], t, false⟩ ')' =
      .ok ⟨⟨T.nodes ++ [⟨n, t, some p, dataOfText t⟩]⟩, n + 1, q0, [], true⟩ := by
  unfold stepChar
  rw [if_neg (by decide), if_pos rfl, flush_pending T n q0 p t htOk hids hp, ebind_ok]
  rw [if_neg (by simp), List.dropLast_concat]

theorem stepChar_bar_ended (T : ParsedTree) (n : Int) (q : List (Option Int)) :
    stepChar ⟨T, n, q, [], true⟩ '|' = .ok ⟨T, n, q, [], true⟩ := by
  unfold stepChar
  rw [if_neg (by decide), if_neg (by decide), if_pos rfl]
  unfold flushIfPending
  rw [if_pos rfl, ebind_ok]

theorem stepChar_close_ended (T : ParsedTree) (n : Int) (q0 : List (Option Int)) (p : Option Int) :
    stepChar ⟨T, n, q0 ++ [p], [], true⟩ ')' = .ok ⟨T, n, q0, [], true⟩ := by
  unfold stepChar
  rw [if_neg (by decide), if_pos rfl]
  unfold flushIfPending
  rw [if_pos rfl, ebind_ok]
  rw [if_neg (by simp), List.dropLast_concat]

theorem scan_cons (s : ScanState) (c : Char) (rest : List Char) :
    scan s (c :: rest) = stepChar s c >>= fun s1 => scan s1 rest := rfl

theorem topPar_concat (q0 : List (Option Int)) (a : Option Int) :
    topPar (q0 ++ [a]) = a := by
  simp [topPar, List.getLast?_concat]

theorem goodTop_concat (T : ParsedTree) (q0 : List (Option Int)) (p : Int)
    (hp : p ∈ T.ids) : GoodTop T (q0 ++ [some p]) := by
  unfold GoodTop
  rw [List.getLast?_concat]
  exact hp

theorem ids_append (T : ParsedTree) (l : List FlatNode) :
    (ParsedTree.mk (T.nodes ++ l)).ids = T.ids ++ l.map (·.id) := by
  simp [ParsedTree.ids]

theorem mem_ids_append_left (T : ParsedTree) (l : List FlatNode) (p : Int)
    (hp : p ∈ T.ids) : p ∈ (ParsedTree.mk (T.nodes ++ l)).ids := by
  rw [ids_append]
  exact List.mem_append_left _ hp

theorem idsBelow_append (T : ParsedTree) (l : List FlatNode) (n m : Int)
    (h1 : IdsBelow T n) (hnm : n ≤ m) (h2 : ∀ nd ∈ l, nd.id < m) :
    IdsBelow ⟨T.nodes ++ l⟩ m := by
  intro i hi
  rw [ids_append] at hi
  rcases List.mem_append.mp hi with hi | hi
  · exact lt_of_lt_of_le (h1 i hi) hnm
  · obtain ⟨nd, hnd, rfl⟩ := List.mem_map.mp hi
    exact h2 nd hnd

def scanTreeOut : RawTree → ParsedTree → Int → List (Option Int) → ScanState
  | .mk t .nil, T, n, q => ⟨T, n, q, t, false⟩
  | .mk t (.cons c f), T, n, q =>
    ⟨⟨T.nodes ++ (RawTree.mk t (.cons c f)).flatten n (topPar q)⟩,
      n + ((RawTree.mk t (.cons c f)).sizeR : Int), q, [], true⟩

theorem scan_child_bar (c : RawTree)
    (hsc : ∀ (T : ParsedTree) (n : Int) (q : List (Option Int)) (e : Bool),
      IdsBelow T n → GoodTop T q →
      scan ⟨T, n, q, [], e⟩ c.render = .ok (scanTreeOut c T n q))
    (hwfc : c.wf = true) (T : ParsedTree) (n : Int) (q0 : List (Option Int)) (p : Int)
    (e : Bool) (hids : IdsBelow T n) (hp : p ∈ T.ids) :
    scan ⟨T, n, q0 ++ [some p], [], e⟩ (c.render ++ ['|'])
      = .ok ⟨⟨T.nodes ++ c.flatten n (some p)⟩, n + (c.sizeR : Int), q0 ++ [some p], [], true⟩ := by
  rw [scan_append, hsc T n (q0 ++ [some p]) e hids (goodTop_concat T q0 p hp), ebind_ok]
  cases c with
  | mk ct cf =>
    have hwfp : textOk ct = true ∧ cf.wfF = true := by
      simpa only [RawTree.wf, Bool.and_eq_true] using hwfc
    cases cf with
    | nil =>
      simp only [scanTreeOut]
      rw [scan_cons, stepChar_bar_flush T n q0 p ct hwfp.1 hids hp, ebind_ok]
      simp only [scan, Except.ok.injEq, ScanState.mk.injEq]
      refine ⟨?_, ?_, trivial, trivial, trivial⟩
      · simp [RawTree.flatten, RawForest.flattenF]
      · simp [RawTree.sizeR, RawForest.sizeF]
    | cons cc cf2 =>
      simp only [scanTreeOut]
      rw [scan_cons, topPar_concat, stepChar_bar_ended, ebind_ok]
      simp [scan]

theorem scan_child_close (c : RawTree)
    (hsc : ∀ (T : ParsedTree) (n : Int) (q : List (Option Int)) (e : Bool),
      IdsBelow T n → GoodTop T q →
      scan ⟨T, n, q, [], e⟩ c.render = .ok (scanTreeOut c T n q))
    (hwfc : c.wf = true) (T : ParsedTree) (n : Int) (q0 : List (Option Int)) (p : Int)
    (e : Bool) (hids : IdsBelow T n) (hp : p ∈ T.ids) :
    scan ⟨T, n, q0 ++ [some p], [], e⟩ (c.render ++ [')'])
      = .ok ⟨⟨T.nodes ++ c.flatten n (some p)⟩, n + (c.sizeR : Int), q0, [], true⟩ := by
  rw [scan_append, hsc T n (q0 ++ [some p]) e hids (goodTop_concat T q0 p hp), ebind_ok]
  cases c with
  | mk ct cf =>
    have hwfp : textOk ct = true ∧ cf.wfF = true := by
      simpa only [RawTree.wf, Bool.and_eq_true] using hwfc
    cases cf with
    | nil =>
      simp only [scanTreeOut]
      rw [scan_cons, stepChar_close_flush T n q0 p ct hwfp.1 hids hp, ebind_ok]
      simp only [scan, Except.ok.injEq, ScanState.mk.injEq]
      refine ⟨?_, ?_, trivial, trivial, trivial⟩
      · simp [RawTree.flatten, RawForest.flattenF]
      · simp [RawTree.sizeR, RawForest.sizeF]
    | cons cc cf2 =>
      simp only [scanTreeOut]
      rw [scan_cons, topPar_concat, stepChar_close_ended, ebind_ok]
      simp [scan]

mutual
theorem scanTree (rt : RawTree) (hwf : rt.wf = true) :
    ∀ (T : ParsedTree) (n : Int) (q : List (Option Int)) (e : Bool),
      IdsBelow T n → GoodTop T q →
      scan ⟨T, n, q, [], e⟩ rt.render = .ok (scanTreeOut rt T n q) := by
  cases rt with
  | mk t f =>
    cases f with
    | nil =>
      intro T n q e hids hgt
      have htOk : textOk t = true := by
        simpa only [RawTree.wf, RawForest.wfF, Bool.and_true] using hwf
      obtain ⟨hne, hns, _, _⟩ := textOk_parts t htOk
      have := scan_text t hns hne T n q [] e
      simpa only [RawTree.render, scanTreeOut, List.nil_append] using this
    | cons c f2 =>
      intro T n q e hids hgt
      have hwfp : textOk t = true ∧ (RawForest.cons c f2).wfF = true := by
        simpa only [RawTree.wf, Bool.and_eq_true] using hwf
      obtain ⟨hne, hns, _, _⟩ := textOk_parts t hwfp.1
      rw [show (RawTree.mk t (.cons c f2)).render
          = t ++ '(' :: (joinChar '|' ((RawForest.cons c f2).renderList) ++ [')']) from rfl]
      rw [scan_append, scan_text t hns hne T n q [] e, ebind_ok, List.nil_append,
        scan_cons, stepChar_open T n q t false hwfp.1 hids hgt, ebind_ok]
      have hids1 : IdsBelow ⟨T.nodes ++ [⟨n, t, topPar q, dataOfText t⟩]⟩ (n + 1) := by
        refine idsBelow_append T _ n (n + 1) hids (by omega) ?_
        intro nd hnd
        rcases List.mem_singleton.mp hnd with rfl
        dsimp only
        omega
      have hpn : n ∈ (ParsedTree.mk (T.nodes ++ [⟨n, t, topPar q, dataOfText t⟩])).ids := by
        rw [ids_append]
        simp
      have hsf := scanForest (RawForest.cons c f2) hwfp.2 (by intro hx; cases hx)
        ⟨T.nodes ++ [⟨n, t, topPar q, dataOfText t⟩]⟩ (n + 1) q n false hids1 hpn
      rw [hsf]
      simp only [scanTreeOut, Except.ok.injEq, ScanState.mk.injEq]
      refine ⟨?_, ?_, trivial, trivial, trivial⟩
      · simp [RawTree.flatten]
      · simp only [RawTree.sizeR]
        push_cast
        ring
theorem scanForest (f : RawForest) (hwf : f.wfF = true) (hne : f ≠ .nil) :
    ∀ (T : ParsedTree) (n : Int) (q0 : List (Option Int)) (p : Int) (e : Bool),
      IdsBelow T n → p ∈ T.ids →
      scan ⟨T, n, q0 ++ [some p], [], e⟩ (joinChar '|' f.renderList ++ [')'])
        = .ok ⟨⟨T.nodes ++ f.flattenF n (some p)⟩, n + (f.sizeF : Int), q0, [], true⟩ := by
  cases f with
  | nil => exact absurd rfl hne
  | cons c f2 =>
    intro T n q0 p e hids hp
    have hwfp : c.wf = true ∧ f2.wfF = true := by
      simpa only [RawForest.wfF, Bool.and_eq_true] using hwf
    cases f2 with
    | nil =>
      rw [show joinChar '|' ((RawForest.cons c .nil).renderList) ++ [')']
          = c.render ++ [')'] from rfl]
      rw [scan_child_close c (scanTree c hwfp.1) hwfp.1 T n q0 p e hids hp]
      simp only [Except.ok.injEq, ScanState.mk.injEq]
      refine ⟨?_, ?_, trivial, trivial, trivial⟩
      · simp [RawForest.flattenF]
      · simp [RawForest.sizeF]
    | cons c2 f3 =>
      rw [show joinChar '|' ((RawForest.cons c (.cons c2 f3)).renderList) ++ [')']
          = c.render ++ ('|' :: (joinChar '|' ((RawForest.cons c2 f3).renderList) ++ [')'])) from by
        simp only [RawForest.renderList, joinChar]
        simp]
      rw [show c.render ++ ('|' :: (joinChar '|' ((RawForest.cons c2 f3).renderList) ++ [')']))
          = (c.render ++ ['|']) ++ (joinChar '|' ((RawForest.cons c2 f3).renderList) ++ [')']) from by
        simp]
      rw [scan_append, scan_child_bar c (scanTree c hwfp.1) hwfp.1 T n q0 p e hids hp,
        ebind_ok]
      have hids2 : IdsBelow ⟨T.nodes ++ c.flatten n (some p)⟩ (n + (c.sizeR : Int)) := by
        refine idsBelow_append T _ n (n + (c.sizeR : Int)) hids
          (by
            have : (0 : Int) ≤ (c.sizeR : Int) := Int.ofNat_nonneg _
            omega) ?_
        intro nd hnd
        exact (flatten_ids c n (some p) nd hnd).2
      have hp2 : p ∈ (ParsedTree.mk (T.nodes ++ c.flatten n (some p))).ids :=
        mem_ids_append_left T _ p hp
      have hsf := scanForest (RawForest.cons c2 f3) hwfp.2 (by intro hx; cases hx)
        ⟨T.nodes ++ c.flatten n (some p)⟩ (n + (c.sizeR : Int)) q0 p true hids2 hp2
      rw [hsf]
      simp only [Except.ok.injEq, ScanState.mk.injEq]
      refine ⟨?_, ?_, trivial, trivial, trivial⟩
      · simp only [RawForest.flattenF]
        rw [List.append_assoc]
      · simp only [RawForest.sizeF]
        push_cast
        ring
end

theorem from_text_render (rt : RawTree) (hwf : rt.wf = true) (hbr : rt.isBranch = true) :
    ParsedTree.from_text rt.render false = .ok ⟨rt.flatten 0 none⟩ := by
  unfold ParsedTree.from_text
  show (scan ⟨⟨[]⟩, 0, [none], [], true⟩ rt.render).map (·.tree) = _
  rw [scanTree rt hwf ⟨[]⟩ 0 [none] true
    (by intro i hi; simp [ParsedTree.ids] at hi)
    (by unfold GoodTop; simp)]
  cases rt with
  | mk t f =>
    cases f with
    | nil => cases hbr
    | cons c f2 =>
      simp only [scanTreeOut, emap_ok, Except.ok.injEq]
      have : topPar [(none : Option Int)] = none := by
        simp [topPar]
      rw [this]
      simp

mutual
theorem flatten_parents (rt : RawTree) (n : Int) (par : Option Int) :
    ∀ nd ∈ rt.flatten n par,
      nd.parent = par ∨ ∃ j, nd.parent = some j ∧ n ≤ j ∧ j < n + (rt.sizeR : Int) := by
  cases rt with
  | mk t f =>
    intro nd hnd
    simp only [RawTree.flatten, List.mem_cons] at hnd
    have hsz : ((RawTree.mk t f).sizeR : Int) = 1 + (f.sizeF : Int) := by
      simp [RawTree.sizeR]
    rcases hnd with rfl | hnd
    · exact Or.inl rfl
    · rcases flattenF_parents f (n + 1) (some n) nd hnd with h | ⟨j, hj, hj1, hj2⟩
      · refine Or.inr ⟨n, h, le_refl n, ?_⟩
        rw [hsz]
        have : (0 : Int) ≤ (f.sizeF : Int) := Int.ofNat_nonneg _
        omega
      · refine Or.inr ⟨j, hj, by omega, ?_⟩
        rw [hsz]
        omega
theorem flattenF_parents (f : RawForest) (n : Int) (par : Option Int) :
    ∀ nd ∈ f.flattenF n par,
      nd.parent = par ∨ ∃ j, nd.parent = some j ∧ n ≤ j ∧ j < n + (f.sizeF : Int) := by
  cases f with
  | nil =>
    intro nd hnd
    simp [RawForest.flattenF] at hnd
  | cons c f2 =>
    intro nd hnd
    simp only [RawForest.flattenF, List.mem_append] at hnd
    have hsz : ((RawForest.cons c f2).sizeF : Int) = (c.sizeR : Int) + (f2.sizeF : Int) := by
      simp [RawForest.sizeF]
    have hc0 : (0 : Int) ≤ (c.sizeR : Int) := Int.ofNat_nonneg _
    have hf0 : (0 : Int) ≤ (f2.sizeF : Int) := Int.ofNat_nonneg _
    rcases hnd with hnd | hnd
    · rcases flatten_parents c n par nd hnd with h | ⟨j, hj, hj1, hj2⟩
      · exact Or.inl h
      · refine Or.inr ⟨j, hj, hj1, ?_⟩
        rw [hsz]
        omega
    · rcases flattenF_parents f2 (n + (c.sizeR : Int)) par nd hnd with h | ⟨j, hj, hj1, hj2⟩
      · exact Or.inl h
      · refine Or.inr ⟨j, hj, by omega, ?_⟩
        rw [hsz]
        omega
end

mutual
theorem flatten_length (rt : RawTree) (n : Int) (par : Option Int) :
    (rt.flatten n par).length = rt.sizeR := by
  cases rt with
  | mk t f =>
    simp only [RawTree.flatten, List.length_cons, RawTree.sizeR,
      flattenF_length f (n + 1) (some n)]
    omega
theorem flattenF_length (f : RawForest) (n : Int) (par : Option Int) :
    (f.flattenF n par).length = f.sizeF := by
  cases f with
  | nil => rfl
  | cons c f2 =>
    simp only [RawForest.flattenF, List.length_append, RawForest.sizeF,
      flatten_length c n par, flattenF_length f2 (n + (c.sizeR : Int)) par]
end

mutual
theorem filter_children_flatten (rt : RawTree) (n : Int) (par : Option Int) (k : Int)
    (hk : k < n) :
    (rt.flatten n par).filter (fun nd => nd.parent == some k)
      = if par = some k then [⟨n, rt.text, par, dataOfText rt.text⟩] else [] := by
  cases rt with
  | mk t f =>
    simp only [RawTree.flatten, List.filter_cons]
    rw [filter_children_flattenF f (n + 1) (some n) k (by omega)]
    rw [if_neg (show ¬((some n : Option Int) = some k) from by
      intro hx
      rw [Option.some.injEq] at hx
      omega)]
    by_cases hpk : par = some k
    · rw [if_pos (show (par == some k) = true from by simp [hpk]), if_pos hpk]
      rfl
    · rw [if_neg (show ¬((par == some k) = true) from by simp [hpk]), if_neg hpk]
theorem filter_children_flattenF (f : RawForest) (n : Int) (par : Option Int) (k : Int)
    (hk : k < n) :
    (f.flattenF n par).filter (fun nd => nd.parent == some k)
      = if par = some k then f.headNodesF n par else [] := by
  cases f with
  | nil => simp [RawForest.flattenF, RawForest.headNodesF]
  | cons c f2 =>
    have hc0 : (0 : Int) ≤ (c.sizeR : Int) := Int.ofNat_nonneg _
    simp only [RawForest.flattenF, List.filter_append]
    rw [filter_children_flatten c n par k hk,
      filter_children_flattenF f2 (n + (c.sizeR : Int)) par k (by omega)]
    by_cases hpk : par = some k
    · rw [if_pos hpk, if_pos hpk, if_pos hpk]
      simp only [RawForest.headNodesF]
      rfl
    · rw [if_neg hpk, if_neg hpk, if_neg hpk]
      rfl
end

theorem render_ne_nil (rt : RawTree) (hwf : rt.wf = true) : rt.render ≠ [] := by
  cases rt with
  | mk t f =>
    have htOk : textOk t = true := by
      cases f with
      | nil => simpa only [RawTree.wf, RawForest.wfF, Bool.and_true] using hwf
      | cons c f2 =>
        have := (Bool.and_eq_true _ _).mp (by simpa only [RawTree.wf] using hwf)
        exact this.1
    have hne : t ≠ [] := (textOk_parts t htOk).1
    cases f with
    | nil => exact hne
    | cons c f2 =>
      simp only [RawTree.render]
      intro hx
      rw [List.append_eq_nil] at hx
      exact hne hx.1

theorem joinChar_cons_ne_nil (x : List Char) (xs : List (List Char)) (hx : x ≠ []) :
    joinChar '|' (x :: xs) ≠ [] := by
  cases xs with
  | nil => exact hx
  | cons y ys =>
    simp only [joinChar]
    intro hcontra
    rw [List.append_eq_nil] at hcontra
    exact hx hcontra.1

mutual
theorem toText_flatten (rt : RawTree) (hwf : rt.wf = true) :
    ∀ (n : Int) (par : Option Int) (X Y : List FlatNode) (fuel : Nat),
      rt.sizeR ≤ fuel →
      (par = none ∨ ∃ j, par = some j ∧ j < n) →
      (∀ nd ∈ X ++ Y, ¬(n ≤ nd.id ∧ nd.id < n + (rt.sizeR : Int))) →
      (∀ nd ∈ X ++ Y, ∀ k, nd.parent = some k → ¬(n ≤ k ∧ k < n + (rt.sizeR : Int))) →
      ParsedTree.toTextAux ⟨X ++ rt.flatten n par ++ Y⟩ fuel n = .ok rt.render := by
  cases rt with
  | mk t f =>
    intro n par X Y fuel hfuel hpar hXYids hXYpar
    have htOk : textOk t = true ∧ f.wfF = true := by
      simpa only [RawTree.wf, Bool.and_eq_true] using hwf
    obtain ⟨hne, hns, hft, hrt⟩ := textOk_parts t htOk.1
    have hsz : ((RawTree.mk t f).sizeR : Int) = 1 + (f.sizeF : Int) := by
      simp [RawTree.sizeR]
    have hszpos : 1 ≤ (RawTree.mk t f).sizeR := by
      simp [RawTree.sizeR]
    have hf0 : (0 : Int) ≤ (f.sizeF : Int) := Int.ofNat_nonneg _
    obtain ⟨fl, rfl⟩ : ∃ fl, fuel = fl + 1 := ⟨fuel - 1, by omega⟩
    have hfind : ParsedTree.find ⟨X ++ (RawTree.mk t f).flatten n par ++ Y⟩ n
        = some ⟨n, t, par, dataOfText t⟩ := by
      unfold ParsedTree.find
      rw [List.find?_append]
      have hx : X.find? (fun nd => nd.id == n) = none := by
        rw [List.find?_eq_none]
        intro nd hnd
        have := hXYids nd (List.mem_append_left _ hnd)
        simp only [beq_iff_eq]
        intro hid
        refine this ⟨le_of_eq hid.symm, ?_⟩
        rw [hid, hsz]
        omega
      rw [List.find?_append, hx]
      simp only [Option.none_or]
      have hm : ((RawTree.mk t f).flatten n par).find? (fun nd => nd.id == n)
          = some ⟨n, t, par, dataOfText t⟩ := by
        simp only [RawTree.flatten, List.find?_cons, beq_self_eq_true]
      rw [hm]
      rfl
    have hch : ParsedTree.children ⟨X ++ (RawTree.mk t f).flatten n par ++ Y⟩ n
        = f.headNodesF (n + 1) (some n) := by
      unfold ParsedTree.children
      rw [List.filter_append, List.filter_append]
      have hx : X.filter (fun nd => nd.parent == some n) = [] := by
        rw [List.filter_eq_nil_iff]
        intro nd hnd
        simp only [beq_iff_eq]
        intro hp
        refine hXYpar nd (List.mem_append_left _ hnd) n hp ⟨le_refl n, ?_⟩
        rw [hsz]
        omega
      have hy : Y.filter (fun nd => nd.parent == some n) = [] := by
        rw [List.filter_eq_nil_iff]
        intro nd hnd
        simp only [beq_iff_eq]
        intro hp
        refine hXYpar nd (List.mem_append_right _ hnd) n hp ⟨le_refl n, ?_⟩
        rw [hsz]
        omega
      have hm : ((RawTree.mk t f).flatten n par).filter (fun nd => nd.parent == some n)
          = f.headNodesF (n + 1) (some n) := by
        simp only [RawTree.flatten, List.filter_cons]
        rw [filter_children_flattenF f (n + 1) (some n) n (by omega), if_pos rfl]
        have hparn : ¬(par == some n) = true := by
          simp only [beq_iff_eq]
          rcases hpar with rfl | ⟨j, rfl, hj⟩
          · intro hx2
            cases hx2
          · intro hx2
            rw [Option.some.injEq] at hx2
            omega
        rw [if_neg hparn]
      rw [hx, hy, hm]
      simp
    simp only [ParsedTree.toTextAux, hfind, hch]
    cases f with
    | nil =>
      simp only [RawForest.headNodesF, mapME, ebind_ok, joinChar]
      simp only [List.isEmpty_nil, if_true]
      exact congrArg Except.ok hrt
    | cons c f2 =>
      have hnode : ∀ nd ∈ (X ++ [(⟨n, t, par, dataOfText t⟩ : FlatNode)]) ++ Y,
          nd ∈ X ++ Y ∨ nd = ⟨n, t, par, dataOfText t⟩ := by
        intro nd hnd
        rcases List.mem_append.mp hnd with hnd | hnd
        · rcases List.mem_append.mp hnd with hnd | hnd
          · exact Or.inl (List.mem_append_left _ hnd)
          · exact Or.inr (List.mem_singleton.mp hnd)
        · exact Or.inl (List.mem_append_right _ hnd)
      have hszF : ((RawForest.cons c f2).sizeF : Int)
          = ((RawTree.mk t (RawForest.cons c f2)).sizeR : Int) - 1 := by
        rw [hsz]
        ring
      have hmap := toText_flattenF (RawForest.cons c f2) htOk.2 (n + 1) n
        (X ++ [⟨n, t, par, dataOfText t⟩]) Y fl
        (by
          simp only [RawTree.sizeR] at hfuel
          omega)
        (by omega)
        (by
          intro nd hnd
          rcases hnode nd hnd with hnd2 | rfl
          · have := hXYids nd hnd2
            rw [hszF]
            intro hcon
            exact this ⟨by omega, by omega⟩
          · dsimp only
            intro hcon
            omega)
        (by
          intro nd hnd k hk
          rcases hnode nd hnd with hnd2 | rfl
          · have := hXYpar nd hnd2 k hk
            rw [hszF]
            intro hcon
            exact this ⟨by omega, by omega⟩
          · dsimp only at hk
            rcases hpar with rfl | ⟨j, hj, hjlt⟩
            · cases hk
            · rw [hj, Option.some.injEq] at hk
              subst hk
              intro hcon
              omega)
      have hlist : (X ++ [(⟨n, t, par, dataOfText t⟩ : FlatNode)])
            ++ (RawForest.cons c f2).flattenF (n + 1) (some n) ++ Y
          = X ++ (RawTree.mk t (RawForest.cons c f2)).flatten n par ++ Y := by
        simp [RawTree.flatten]
      rw [hlist] at hmap
      rw [hmap, ebind_ok]
      have hcne : c.render ≠ [] := by
        refine render_ne_nil c ?_
        exact ((Bool.and_eq_true _ _).mp htOk.2).1
      have hct : (joinChar '|' ((RawForest.cons c f2).renderList)).isEmpty = false := by
        rw [List.isEmpty_eq_false]
        exact joinChar_cons_ne_nil c.render f2.renderList hcne
      refine congrArg Except.ok ?_
      rw [if_neg (show ¬((joinChar '|' ((RawForest.cons c f2).renderList)).isEmpty = true) from by
        rw [hct]
        exact Bool.false_ne_true)]
      show (dataOfText t).to_text ++ _ = _
      rw [hrt]
      rfl
theorem toText_flattenF (f : RawForest) (hwf : f.wfF = true) :
    ∀ (m j : Int) (X Y : List FlatNode) (fuel : Nat),
      f.sizeF ≤ fuel →
      j < m →
      (∀ nd ∈ X ++ Y, ¬(m ≤ nd.id ∧ nd.id < m + (f.sizeF : Int))) →
      (∀ nd ∈ X ++ Y, ∀ k, nd.parent = some k → ¬(m ≤ k ∧ k < m + (f.sizeF : Int))) →
      mapME (fun c => ParsedTree.toTextAux ⟨X ++ f.flattenF m (some j) ++ Y⟩ fuel c.id)
        (f.headNodesF m (some j)) = .ok f.renderList := by
  cases f with
  | nil =>
    intro m j X Y fuel _ _ _ _
    rfl
  | cons c f2 =>
    intro m j X Y fuel hfuel hjm hXYids hXYpar
    have hwfp : c.wf = true ∧ f2.wfF = true := by
      simpa only [RawForest.wfF, Bool.and_eq_true] using hwf
    have hc0 : (0 : Int) ≤ (c.sizeR : Int) := Int.ofNat_nonneg _
    have hc1 : 1 ≤ c.sizeR := by
      cases c with
      | mk ct cf => simp [RawTree.sizeR]
    have hf0 : (0 : Int) ≤ (f2.sizeF : Int) := Int.ofNat_nonneg _
    have hszF : ((RawForest.cons c f2).sizeF : Int) = (c.sizeR : Int) + (f2.sizeF : Int) := by
      simp [RawForest.sizeF]
    have hhead := toText_flatten c hwfp.1 m (some j) X
      ((f2.flattenF (m + (c.sizeR : Int)) (some j)) ++ Y) fuel
      (by
        simp only [RawForest.sizeF] at hfuel
        omega)
      (Or.inr ⟨j, rfl, hjm⟩)
      (by
        intro nd hnd
        rcases List.mem_append.mp hnd with hnd | hnd
        · have := hXYids nd (List.mem_append_left _ hnd)
          rw [hszF] at this
          intro hcon
          exact this ⟨by omega, by omega⟩
        · rcases List.mem_append.mp hnd with hnd | hnd
          · have := flattenF_ids f2 (m + (c.sizeR : Int)) (some j) nd hnd
            intro hcon
            omega
          · have := hXYids nd (List.mem_append_right _ hnd)
            rw [hszF] at this
            intro hcon
            exact this ⟨by omega, by omega⟩)
      (by
        intro nd hnd k hk
        rcases List.mem_append.mp hnd with hnd | hnd
        · have := hXYpar nd (List.mem_append_left _ hnd) k hk
          rw [hszF] at this
          intro hcon
          exact this ⟨by omega, by omega⟩
        · rcases List.mem_append.mp hnd with hnd | hnd
          · rcases flattenF_parents f2 (m + (c.sizeR : Int)) (some j) nd hnd with hp | hp
            · rw [hk] at hp
              rw [Option.some.injEq] at hp
              subst hp
              intro hcon
              omega
            · obtain ⟨j2, hj2, hj2a, hj2b⟩ := hp
              rw [hk] at hj2
              rw [Option.some.injEq] at hj2
              subst hj2
              intro hcon
              omega
          · have := hXYpar nd (List.mem_append_right _ hnd) k hk
            rw [hszF] at this
            intro hcon
            exact this ⟨by omega, by omega⟩)
    have htail := toText_flattenF f2 hwfp.2 (m + (c.sizeR : Int)) j
      (X ++ c.flatten m (some j)) Y fuel
      (by
        simp only [RawForest.sizeF] at hfuel
        omega)
      (by omega)
      (by
        intro nd hnd
        rcases List.mem_append.mp hnd with hnd | hnd
        · rcases List.mem_append.mp hnd with hnd | hnd
          · have := hXYids nd (List.mem_append_left _ hnd)
            rw [hszF] at this
            intro hcon
            exact this ⟨by omega, by omega⟩
          · have := flatten_ids c m (some j) nd hnd
            intro hcon
            omega
        · have := hXYids nd (List.mem_append_right _ hnd)
          rw [hszF] at this
          intro hcon
          exact this ⟨by omega, by omega⟩)
      (by
        intro nd hnd k hk
        rcases List.mem_append.mp hnd with hnd | hnd
        · rcases List.mem_append.mp hnd with hnd | hnd
          · have := hXYpar nd (List.mem_append_left _ hnd) k hk
            rw [hszF] at this
            intro hcon
            exact this ⟨by omega, by omega⟩
          · rcases flatten_parents c m (some j) nd hnd with hp | hp
            · rw [hk] at hp
              rw [Option.some.injEq] at hp
              subst hp
              intro hcon
              omega
            · obtain ⟨j2, hj2, hj2a, hj2b⟩ := hp
              rw [hk] at hj2
              rw [Option.some.injEq] at hj2
              subst hj2
              intro hcon
              omega
        · have := hXYpar nd (List.mem_append_right _ hnd) k hk
          rw [hszF] at this
          intro hcon
          exact this ⟨by omega, by omega⟩)
    have hlist1 : X ++ c.flatten m (some j)
          ++ ((f2.flattenF (m + (c.sizeR : Int)) (some j)) ++ Y)
        = X ++ (RawForest.cons c f2).flattenF m (some j) ++ Y := by
      simp [RawForest.flattenF]
    have hlist2 : (X ++ c.flatten m (some j))
          ++ f2.flattenF (m + (c.sizeR : Int)) (some j) ++ Y
        = X ++ (RawForest.cons c f2).flattenF m (some j) ++ Y := by
      simp [RawForest.flattenF]
    rw [hlist1] at hhead
    rw [hlist2] at htail
    show mapME _ (⟨m, c.text, some j, dataOfText c.text⟩
      :: f2.headNodesF (m + (c.sizeR : Int)) (some j)) = _
    simp only [mapME]
    rw [hhead, ebind_ok, htail, ebind_ok]
    rfl
end

theorem rootId_flatten (rt : RawTree) :
    (ParsedTree.mk (rt.flatten 0 none)).rootId = some 0 := by
  cases rt with
  | mk t f =>
    unfold ParsedTree.rootId
    simp [RawTree.flatten, List.find?_cons, Option.isNone]

/-- Claim C1 (amended): round-trip holds for every well-formed bracketed
tree text whose top-level node has children (i.e. the text contains a
bracket group): parsing with `normalize=False` and re-serializing
returns the input exactly.  A bare single-node text is grammatical but
parses to an empty tree (the trailing buffer is never flushed), whose
`to_text` fails, so the claim is amended to branch roots. -/
theorem text_roundtrip (rt : RawTree) (hwf : rt.wf = true) (hbr : rt.isBranch = true) :
    (ParsedTree.from_text rt.render false).bind ParsedTree.to_text = .ok rt.render := by
  rw [from_text_render rt hwf hbr]
  show ParsedTree.to_text ⟨rt.flatten 0 none⟩ = _
  unfold ParsedTree.to_text
  rw [rootId_flatten rt]
  have hlen : (ParsedTree.mk (rt.flatten 0 none)).nodes.length = rt.sizeR :=
    flatten_length rt 0 none
  rw [hlen]
  have htt := toText_flatten rt hwf 0 none [] [] rt.sizeR (le_refl _) (Or.inl rfl)
    (by simp) (by simp)
  rw [show ([] : List FlatNode) ++ rt.flatten 0 none ++ [] = rt.flatten 0 none from by
    simp] at htt
  exact htt

/-- Claim C1 counterexample to the original claim: `"Na"` is a
well-formed single-node tree text per the grammar, with no
redundant/empty segments, but `from_text("Na", normalize=False)` yields
an empty tree (the buffer is only flushed at a structural character),
and `to_text` on it fails — so the round-trip does not return `"Na"`. -/
theorem text_roundtrip_cex :
    RawTree.wf (.mk ("Na".toList) .nil) = true ∧
    RawTree.render (.mk ("Na".toList) .nil) = "Na".toList ∧
    ParsedTree.from_text ("Na".toList) false = .ok ⟨[]⟩ ∧
    (ParsedTree.from_text ("Na".toList) false).bind ParsedTree.to_text
      = .error .nodeAbsent := by
  refine ⟨by decide, by decide, by rfl, by rfl⟩

/-- Claim C1 witness: the round-trip theorem applied to the spec's
example tree (root `S` with two leaf children). -/
theorem text_roundtrip_w :
    (ParsedTree.from_text
        (RawTree.render (.mk ("S".toList)
          (.cons (.mk ("Head:Nab:中文字".toList) .nil)
            (.cons (.mk ("particle:Td:耶".toList) .nil) .nil)))) false).bind
        ParsedTree.to_text
      = .ok (RawTree.render (.mk ("S".toList)
          (.cons (.mk ("Head:Nab:中文字".toList) .nil)
            (.cons (.mk ("particle:Td:耶".toList) .nil) .nil)))) ∧
    RawTree.render (.mk ("S".toList)
        (.cons (.mk ("Head:Nab:中文字".toList) .nil)
          (.cons (.mk ("particle:Td:耶".toList) .nil) .nil)))
      = "S(Head:Nab:中文字|particle:Td:耶)".toList := by
  refine ⟨?_, by decide⟩
  exact text_roundtrip
    (.mk ("S".toList)
      (.cons (.mk ("Head:Nab:中文字".toList) .nil)
        (.cons (.mk ("particle:Td:耶".toList) .nil) .nil)))
    (by decide) (by decide)

/-! ### Claim C5: dict round-trip -/

mutual
inductive DictTree where
  | mk (id : Int) (data : ParsedNodeData) (children : DictForest)
deriving DecidableEq
inductive DictForest where
  | nil
  | cons (head : DictTree) (tail : DictForest)
deriving DecidableEq
end

def DictTree.idD : DictTree → Int
  | .mk i _ _ => i

def DictTree.dataD : DictTree → ParsedNodeData
  | .mk _ dat _ => dat

def DictTree.childrenD : DictTree → DictForest
  | .mk _ _ f => f

mutual
def DictTree.sizeD : DictTree → Nat
  | .mk _ _ f => 1 + f.sizeFD
def DictForest.sizeFD : DictForest → Nat
  | .nil => 0
  | .cons d f => d.sizeD + f.sizeFD
end

def DictForest.toListF : DictForest → List DictTree
  | .nil => []
  | .cons d f => d :: f.toListF

def DictForest.ofList : List DictTree → DictForest
  | [] => .nil
  | d :: l => .cons d (DictForest.ofList l)

mutual
def DictTree.allIds : DictTree → List Int
  | .mk i _ f => i :: f.allIdsF
def DictForest.allIdsF : DictForest → List Int
  | .nil => []
  | .cons d f => d.allIds ++ f.allIdsF
end

/-- The queue entries enqueued for a node's children during the
breadth-first walk of `from_dict`. -/
def childEntries (d : DictTree) : List (DictTree × Option Int) :=
  d.childrenD.toListF.map (fun c => (c, some d.idD))

/-- `ParsedTree.from_dict`'s breadth-first loop, fuelled by the total
node count.  The node-data dict codec is modelled from the spec: the
base-class `from_dict`/`to_dict` of `ParsedNodeData` (not under `src/`)
is the exact field-name mapping `{role, pos, word}` with explicit null
for unset fields, i.e. the identity on the embedded record; the tag is
`node_data.to_text()`. -/
def fromDictAux : Nat → ParsedTree → List (DictTree × Option Int) → Except Err ParsedTree
  | _, t, [] => .ok t
  | 0, _, _ :: _ => .error .fuelOut
  | fuel + 1, t, (d, par) :: rest => do
    let t1 ← t.create_node d.dataD.to_text d.idD par d.dataD
    fromDictAux fuel t1 (rest ++ childEntries d)

def ParsedTree.from_dict (d : DictTree) : Except Err ParsedTree :=
  fromDictAux d.sizeD ⟨[]⟩ [(d, none)]

/-- `ParsedTree.to_dict(node_id)` with explicit fuel: the node's id and
data plus the recursively converted children. -/
def ParsedTree.toDictAux (t : ParsedTree) : Nat → Int → Except Err DictTree
  | 0, _ => .error .fuelOut
  | fuel + 1, nid => do
    let node ← match t.find nid with
      | some nd => Except.ok nd
      | none => Except.error Err.nodeAbsent
    let cds ← mapME (fun c => t.toDictAux fuel c.id) (t.children nid)
    .ok (DictTree.mk node.id node.data (DictForest.ofList cds))

/-- `ParsedTree.to_dict()` with the default `node_id=None`: start from
`self.root`. -/
def ParsedTree.to_dict (t : ParsedTree) : Except Err DictTree :=
  match t.rootId with
  | none => .error .nodeAbsent
  | some r => t.toDictAux t.nodes.length r

def qMeasure (Q : List (DictTree × Option Int)) : Nat :=
  (Q.map (fun e => e.1.sizeD)).sum

def flatOf (e : DictTree × Option Int) : FlatNode :=
  ⟨e.1.idD, e.1.dataD.to_text, e.2, e.1.dataD⟩

/-- The flat node list produced by the breadth-first insertion from a
queue of (subtree, parent) entries. -/
theorem sizeFD_eq_sum : ∀ g : DictForest, (g.toListF.map DictTree.sizeD).sum = g.sizeFD
  | .nil => rfl
  | .cons c g2 => by
    simp only [DictForest.toListF, List.map_cons, List.sum_cons, DictForest.sizeFD,
      sizeFD_eq_sum g2]

theorem qMeasure_childEntries (d : DictTree) :
    ((childEntries d).map (fun e => e.1.sizeD)).sum + 1 = d.sizeD := by
  show ((d.childrenD.toListF.map (fun c => (c, some d.idD))).map
    (fun e => e.1.sizeD)).sum + 1 = d.sizeD
  rw [List.map_map]
  calc (List.map ((fun (e : DictTree × Option Int) => e.1.sizeD)
          ∘ (fun c => (c, some d.idD))) d.childrenD.toListF).sum + 1
      = (List.map DictTree.sizeD d.childrenD.toListF).sum + 1 := rfl
    _ = d.childrenD.sizeFD + 1 := by rw [sizeFD_eq_sum d.childrenD]
    _ = d.sizeD := by
        cases d with
        | mk i dat f =>
          simp only [DictTree.childrenD, DictTree.sizeD]
          omega

/-- The flat node list produced by the breadth-first insertion from a
queue of (subtree, parent) entries. -/
def bfsList : List (DictTree × Option Int) → List FlatNode
  | [] => []
  | (d, p) :: rest => flatOf (d, p) :: bfsList (rest ++ childEntries d)
termination_by Q => qMeasure Q
decreasing_by
  simp only [qMeasure, List.map_append, List.sum_append, List.map_cons, List.sum_cons]
  have h1 := qMeasure_childEntries d
  omega

/-- All subtrees reachable from the queue (in breadth-first order). -/
def allTrees : List (DictTree × Option Int) → List DictTree
  | [] => []
  | (d, _) :: rest => d :: allTrees (rest ++ childEntries d)
termination_by Q => qMeasure Q
decreasing_by
  simp only [qMeasure, List.map_append, List.sum_append, List.map_cons, List.sum_cons]
  have h1 := qMeasure_childEntries d
  omega

def qIds (Q : List (DictTree × Option Int)) : List Int :=
  (Q.map (fun e => e.1.allIds)).flatten

theorem qIds_cons (d : DictTree) (p : Option Int) (rest : List (DictTree × Option Int)) :
    qIds ((d, p) :: rest) = d.allIds ++ qIds rest := by
  simp [qIds]

theorem qIds_append (A B : List (DictTree × Option Int)) :
    qIds (A ++ B) = qIds A ++ qIds B := by
  simp [qIds]

theorem allIdsF_eq_flatten : ∀ g : DictForest,
    (g.toListF.map DictTree.allIds).flatten = g.allIdsF
  | .nil => rfl
  | .cons c g2 => by
    simp only [DictForest.toListF, List.map_cons, List.flatten_cons, DictForest.allIdsF,
      allIdsF_eq_flatten g2]

theorem qIds_childEntries (d : DictTree) : qIds (childEntries d) = d.childrenD.allIdsF := by
  show ((d.childrenD.toListF.map (fun c => (c, some d.idD))).map
    (fun e => e.1.allIds)).flatten = _
  rw [List.map_map]
  calc (List.map ((fun (e : DictTree × Option Int) => e.1.allIds)
          ∘ (fun c => (c, some d.idD))) d.childrenD.toListF).flatten
      = (List.map DictTree.allIds d.childrenD.toListF).flatten := rfl
    _ = d.childrenD.allIdsF := allIdsF_eq_flatten d.childrenD

theorem allIds_decomp (d : DictTree) : d.allIds = d.idD :: d.childrenD.allIdsF := by
  cases d with
  | mk i dat f => rfl

theorem idD_mem_qIds (d : DictTree) (p : Option Int) (rest : List (DictTree × Option Int)) :
    d.idD ∈ qIds ((d, p) :: rest) := by
  rw [qIds_cons, allIds_decomp]
  simp

theorem qIds_step_perm (d : DictTree) (p : Option Int) (rest : List (DictTree × Option Int)) :
    (qIds ((d, p) :: rest)).Perm (d.idD :: qIds (rest ++ childEntries d)) := by
  rw [qIds_cons, allIds_decomp, qIds_append, qIds_childEntries]
  show ((d.idD :: d.childrenD.allIdsF) ++ qIds rest).Perm _
  rw [List.cons_append]
  refine List.Perm.cons _ ?_
  exact List.perm_append_comm

theorem qIds_step_subset (d : DictTree) (p : Option Int) (rest : List (DictTree × Option Int)) :
    ∀ x ∈ qIds (rest ++ childEntries d), x ∈ qIds ((d, p) :: rest) := by
  intro x hx
  have := (qIds_step_perm d p rest).mem_iff.mpr (List.mem_cons_of_mem _ hx)
  exact this

theorem nodup_step (d : DictTree) (p : Option Int) (rest : List (DictTree × Option Int))
    (h : (qIds ((d, p) :: rest)).Nodup) :
    (qIds (rest ++ childEntries d)).Nodup ∧ d.idD ∉ qIds (rest ++ childEntries d) := by
  have hperm := qIds_step_perm d p rest
  have h2 : (d.idD :: qIds (rest ++ childEntries d)).Nodup := hperm.nodup_iff.mp h
  rw [List.nodup_cons] at h2
  exact ⟨h2.2, h2.1⟩

/-- Every queued entry's parent identifier lies outside the queue's
remaining trees (it was already inserted into the tree). -/
def ParInv (Q : List (DictTree × Option Int)) : Prop :=
  ∀ e ∈ Q, ∀ pp, e.2 = some pp → pp ∉ qIds Q

theorem parInv_step (d : DictTree) (p : Option Int) (rest : List (DictTree × Option Int))
    (hnodup : (qIds ((d, p) :: rest)).Nodup) (hpi : ParInv ((d, p) :: rest)) :
    ParInv (rest ++ childEntries d) := by
  intro e he pp hpp
  rcases List.mem_append.mp he with he | he
  · have := hpi e (List.mem_cons_of_mem _ he) pp hpp
    intro hmem
    exact this (qIds_step_subset d p rest pp hmem)
  · obtain ⟨c, hc, rfl⟩ := List.mem_map.mp he
    simp only at hpp
    obtain rfl : pp = d.idD := (Option.some.inj hpp).symm
    exact (nodup_step d p rest hnodup).2

theorem bfsList_nil : bfsList [] = [] := by
  rw [bfsList]

theorem bfsList_cons (d : DictTree) (p : Option Int) (rest : List (DictTree × Option Int)) :
    bfsList ((d, p) :: rest) = flatOf (d, p) :: bfsList (rest ++ childEntries d) := by
  rw [bfsList]

theorem allTrees_nil : allTrees [] = [] := by
  rw [allTrees]

theorem allTrees_cons (d : DictTree) (p : Option Int) (rest : List (DictTree × Option Int)) :
    allTrees ((d, p) :: rest) = d :: allTrees (rest ++ childEntries d) := by
  rw [allTrees]

theorem sizeD_pos (d : DictTree) : 1 ≤ d.sizeD := by
  cases d with
  | mk i dat f => simp [DictTree.sizeD]

theorem qMeasure_nil : qMeasure [] = 0 := rfl

theorem qMeasure_cons (d : DictTree) (p : Option Int) (rest : List (DictTree × Option Int)) :
    qMeasure ((d, p) :: rest) = d.sizeD + qMeasure rest := by
  simp [qMeasure]

theorem qMeasure_append (A B : List (DictTree × Option Int)) :
    qMeasure (A ++ B) = qMeasure A + qMeasure B := by
  simp [qMeasure]

theorem qMeasure_eq_zero {Q : List (DictTree × Option Int)} (h : qMeasure Q = 0) : Q = [] := by
  cases Q with
  | nil => rfl
  | cons e rest =>
    exfalso
    obtain ⟨d, p⟩ := e
    rw [qMeasure_cons] at h
    have := sizeD_pos d
    omega

theorem qMeasure_step (d : DictTree) (p : Option Int) (rest : List (DictTree × Option Int)) :
    qMeasure (rest ++ childEntries d) + 1 = qMeasure ((d, p) :: rest) := by
  rw [qMeasure_append, qMeasure_cons]
  have h1 := qMeasure_childEntries d
  show qMeasure rest + ((childEntries d).map (fun e => e.1.sizeD)).sum + 1 = _
  omega

theorem nodup_insert_perm (T : ParsedTree) (d : DictTree) (p : Option Int)
    (rest : List (DictTree × Option Int)) :
    ((T.ids ++ [d.idD]) ++ qIds (rest ++ childEntries d)).Perm
      (T.ids ++ qIds ((d, p) :: rest)) := by
  rw [qIds_append, qIds_childEntries, qIds_cons, allIds_decomp, List.append_assoc,
    List.singleton_append, List.cons_append]
  refine List.Perm.append_left T.ids ?_
  refine List.Perm.cons d.idD ?_
  exact List.perm_append_comm

/-- The breadth-first insertion loop of `from_dict` succeeds and appends
exactly the breadth-first node list, given fresh identifiers and parents
already in the tree. -/
theorem fromDictAux_ok : ∀ k Q (T : ParsedTree) fuel,
    qMeasure Q ≤ k → qMeasure Q ≤ fuel →
    (T.ids ++ qIds Q).Nodup →
    (∀ e ∈ Q, ∃ pp, e.2 = some pp ∧ pp ∈ T.ids) →
    fromDictAux fuel T Q = .ok ⟨T.nodes ++ bfsList Q⟩ := by
  intro k
  induction k with
  | zero =>
    intro Q T fuel hk _ _ _
    have hq : Q = [] := qMeasure_eq_zero (Nat.le_zero.mp hk)
    subst hq
    rw [bfsList_nil, List.append_nil]
    cases fuel <;> rfl
  | succ k ih =>
    intro Q T fuel hk hf hnd hpar
    cases Q with
    | nil =>
      rw [bfsList_nil, List.append_nil]
      cases fuel <;> rfl
    | cons e rest =>
      obtain ⟨d, p⟩ := e
      have hpos := sizeD_pos d
      have hQm := qMeasure_cons d p rest
      cases fuel with
      | zero => omega
      | succ fuel =>
        obtain ⟨pp, hpp, hppmem⟩ := hpar (d, p) (List.mem_cons_self _ _)
        simp only at hpp
        subst hpp
        show (do
          let t1 ← T.create_node d.dataD.to_text d.idD (some pp) d.dataD
          fromDictAux fuel t1 (rest ++ childEntries d)) = _
        have hidq : d.idD ∈ qIds ((d, some pp) :: rest) := idD_mem_qIds d (some pp) rest
        have hdisj := (List.nodup_append.mp hnd).2.2
        have hidT : d.idD ∉ T.ids := fun hx => hdisj hx hidq
        have hcontains : T.ids.contains d.idD = false := by
          cases hc : T.ids.contains d.idD
          · rfl
          · exact absurd (List.elem_iff.mp hc) hidT
        have hcontains2 : T.ids.contains pp = true := List.elem_iff.mpr hppmem
        rw [ParsedTree.create_node, hcontains]
        show (do
          let t1 ← (if false = true then Except.error Err.duplicateNode else
            if T.ids.contains pp = true then
              Except.ok (ParsedTree.mk (T.nodes
                ++ ([⟨d.idD, d.dataD.to_text, some pp, d.dataD⟩] : List FlatNode)))
            else Except.error Err.parentAbsent)
          fromDictAux fuel t1 (rest ++ childEntries d)) = _
        rw [if_neg (by simp), if_pos hcontains2, ebind_ok]
        have hids2 : (ParsedTree.mk
            (T.nodes ++ [⟨d.idD, d.dataD.to_text, some pp, d.dataD⟩])).ids
            = T.ids ++ [d.idD] := by
          simp [ParsedTree.ids]
        have hnd2 : ((ParsedTree.mk
            (T.nodes ++ [⟨d.idD, d.dataD.to_text, some pp, d.dataD⟩])).ids
            ++ qIds (rest ++ childEntries d)).Nodup := by
          rw [hids2]
          exact (nodup_insert_perm T d (some pp) rest).nodup_iff.mpr hnd
        have hpar2 : ∀ e ∈ rest ++ childEntries d, ∃ qq, e.2 = some qq ∧
            qq ∈ (ParsedTree.mk
              (T.nodes ++ [⟨d.idD, d.dataD.to_text, some pp, d.dataD⟩])).ids := by
          intro e he
          rw [hids2]
          rcases List.mem_append.mp he with he | he
          · obtain ⟨qq, hqq, hqqm⟩ := hpar e (List.mem_cons_of_mem _ he)
            exact ⟨qq, hqq, List.mem_append_left _ hqqm⟩
          · obtain ⟨c, _, rfl⟩ := List.mem_map.mp he
            exact ⟨d.idD, rfl, List.mem_append_right _ (List.mem_singleton.mpr rfl)⟩
        have hstep := qMeasure_step d (some pp) rest
        have hrec := ih (rest ++ childEntries d)
          (ParsedTree.mk (T.nodes ++ [⟨d.idD, d.dataD.to_text, some pp, d.dataD⟩]))
          fuel (by omega) (by omega) hnd2 hpar2
        rw [hrec, bfsList_cons]
        show Except.ok (ParsedTree.mk ((T.nodes ++ [flatOf (d, some pp)])
          ++ bfsList (rest ++ childEntries d))) = _
        rw [List.append_assoc, List.singleton_append]

/-- `from_dict d` builds exactly the breadth-first flat node list of `d`,
provided the identifiers of `d` are distinct. -/
theorem from_dict_eq (d : DictTree) (h : d.allIds.Nodup) :
    ParsedTree.from_dict d = .ok ⟨bfsList [(d, none)]⟩ := by
  have hpos := sizeD_pos d
  obtain ⟨fuel, hfuel⟩ : ∃ fuel, d.sizeD = fuel + 1 :=
    ⟨d.sizeD - 1, by omega⟩
  show fromDictAux d.sizeD ⟨[]⟩ [(d, none)] = _
  rw [hfuel]
  show (do
    let t1 ← ParsedTree.create_node ⟨[]⟩ d.dataD.to_text d.idD none d.dataD
    fromDictAux fuel t1 ([] ++ childEntries d)) = _
  rw [ParsedTree.create_node]
  show (do
    let t1 ← (if ([] : List Int).contains d.idD = true then Except.error Err.duplicateNode else
      if ([] : List FlatNode).any (fun nd => nd.parent.isNone) = true then
        Except.error Err.multipleRoot
      else Except.ok (ParsedTree.mk (([] : List FlatNode)
        ++ ([⟨d.idD, d.dataD.to_text, none, d.dataD⟩] : List FlatNode))))
    fromDictAux fuel t1 ([] ++ childEntries d)) = _
  rw [if_neg (by simp), if_neg (by simp), ebind_ok, List.nil_append]
  have hqm : qMeasure (childEntries d) + 1 = d.sizeD := by
    have := qMeasure_step d (none : Option Int) []
    rw [qMeasure_cons, qMeasure_nil, List.nil_append] at this
    omega
  have hnd2 : ((ParsedTree.mk [⟨d.idD, d.dataD.to_text, none, d.dataD⟩]).ids
      ++ qIds (childEntries d)).Nodup := by
    show ([d.idD] ++ qIds (childEntries d)).Nodup
    rw [qIds_childEntries, List.singleton_append]
    rw [allIds_decomp] at h
    exact h
  have hpar2 : ∀ e ∈ childEntries d, ∃ qq, e.2 = some qq ∧
      qq ∈ (ParsedTree.mk [⟨d.idD, d.dataD.to_text, none, d.dataD⟩]).ids := by
    intro e he
    obtain ⟨c, _, rfl⟩ := List.mem_map.mp he
    exact ⟨d.idD, rfl, List.mem_singleton.mpr rfl⟩
  have hrec := fromDictAux_ok (qMeasure (childEntries d)) (childEntries d)
    (ParsedTree.mk [⟨d.idD, d.dataD.to_text, none, d.dataD⟩]) fuel
    (le_refl _) (by omega) hnd2 hpar2
  rw [List.nil_append, hrec, bfsList_cons, List.nil_append]
  rfl

/-- Filtering the breadth-first list by a parent identifier absent from
every queued subtree only recovers the already-queued entries with that
parent. -/
theorem bfs_filter_out : ∀ k Q (kk : Int), qMeasure Q ≤ k → kk ∉ qIds Q →
    (bfsList Q).filter (fun nd => nd.parent == some kk)
      = (Q.filter (fun e => e.2 == some kk)).map flatOf := by
  intro k
  induction k with
  | zero =>
    intro Q kk hk _
    have hq : Q = [] := qMeasure_eq_zero (Nat.le_zero.mp hk)
    subst hq
    rw [bfsList_nil]
    rfl
  | succ k ih =>
    intro Q kk hk hkn
    cases Q with
    | nil =>
      rw [bfsList_nil]
      rfl
    | cons e rest =>
      obtain ⟨d, p⟩ := e
      have hkn2 : kk ∉ qIds (rest ++ childEntries d) := fun hx =>
        hkn (qIds_step_subset d p rest kk hx)
      have hstep := qMeasure_step d p rest
      rw [bfsList_cons, List.filter_cons, ih _ kk (by omega) hkn2, List.filter_append]
      have hne : kk ≠ d.idD := fun hkk => hkn (hkk ▸ idD_mem_qIds d p rest)
      have hchf : (childEntries d).filter (fun e => e.2 == some kk) = [] := by
        rw [List.filter_eq_nil_iff]
        intro e he
        obtain ⟨c, _, rfl⟩ := List.mem_map.mp he
        simp only [Bool.not_eq_true, beq_eq_false_iff_ne, ne_eq, Option.some.injEq]
        exact fun hx => hne hx.symm
      rw [hchf, List.append_nil, List.filter_cons]
      have hcond : ((flatOf (d, p)).parent == some kk) = (p == some kk) := rfl
      rw [hcond]
      dsimp only
      cases hp : (p == some kk) with
      | false => rw [if_neg Bool.false_ne_true, if_neg Bool.false_ne_true]
      | true => rw [if_pos rfl, if_pos rfl, List.map_cons]

theorem allTrees_id_mem : ∀ k Q, qMeasure Q ≤ k →
    ∀ e ∈ allTrees Q, DictTree.idD e ∈ qIds Q := by
  intro k
  induction k with
  | zero =>
    intro Q hk e he
    have hq : Q = [] := qMeasure_eq_zero (Nat.le_zero.mp hk)
    subst hq
    rw [allTrees_nil] at he
    exact absurd he (List.not_mem_nil e)
  | succ k ih =>
    intro Q hk e he
    cases Q with
    | nil =>
      rw [allTrees_nil] at he
      exact absurd he (List.not_mem_nil e)
    | cons e0 rest =>
      obtain ⟨d, p⟩ := e0
      rw [allTrees_cons] at he
      have hstep := qMeasure_step d p rest
      rcases List.mem_cons.mp he with rfl | he
      · exact idD_mem_qIds e p rest
      · exact qIds_step_subset d p rest _ (ih _ (by omega) e he)

theorem entry_mem_allTrees : ∀ k Q, qMeasure Q ≤ k →
    ∀ (dd : DictTree) (p : Option Int), (dd, p) ∈ Q → dd ∈ allTrees Q := by
  intro k
  induction k with
  | zero =>
    intro Q hk dd p hm
    have hq : Q = [] := qMeasure_eq_zero (Nat.le_zero.mp hk)
    subst hq
    exact absurd hm (List.not_mem_nil _)
  | succ k ih =>
    intro Q hk dd p hm
    cases Q with
    | nil => exact absurd hm (List.not_mem_nil _)
    | cons e0 rest =>
      obtain ⟨d, pq⟩ := e0
      rw [allTrees_cons]
      have hstep := qMeasure_step d pq rest
      rcases List.mem_cons.mp hm with heq | hm2
      · rw [Prod.mk.injEq] at heq
        exact heq.1 ▸ List.mem_cons_self _ _
      · exact List.mem_cons_of_mem _
          (ih _ (by omega) dd p (List.mem_append_left _ hm2))

theorem child_mem_allTrees : ∀ k Q, qMeasure Q ≤ k →
    ∀ e ∈ allTrees Q, ∀ c ∈ e.childrenD.toListF, c ∈ allTrees Q := by
  intro k
  induction k with
  | zero =>
    intro Q hk e he
    have hq : Q = [] := qMeasure_eq_zero (Nat.le_zero.mp hk)
    subst hq
    rw [allTrees_nil] at he
    exact absurd he (List.not_mem_nil e)
  | succ k ih =>
    intro Q hk e he c hc
    cases Q with
    | nil =>
      rw [allTrees_nil] at he
      exact absurd he (List.not_mem_nil e)
    | cons e0 rest =>
      obtain ⟨d, p⟩ := e0
      rw [allTrees_cons] at he ⊢
      have hstep := qMeasure_step d p rest
      rcases List.mem_cons.mp he with rfl | he
      · have hentry : (c, some e.idD) ∈ rest ++ childEntries e :=
          List.mem_append_right _ (List.mem_map.mpr ⟨c, hc, rfl⟩)
        exact List.mem_cons_of_mem _
          (entry_mem_allTrees k _ (by omega) c (some e.idD) hentry)
      · exact List.mem_cons_of_mem _ (ih _ (by omega) e he c hc)

/-- In the breadth-first node list of a queue with distinct identifiers
and outside parents, every reachable subtree is found by its id with its
own data, and its children-filter yields exactly its direct subtrees in
order. -/
theorem bfs_sub : ∀ k Q, qMeasure Q ≤ k → (qIds Q).Nodup → ParInv Q →
    ∀ e ∈ allTrees Q,
      (∃ pp, (bfsList Q).find? (fun nd => nd.id == e.idD)
          = some ⟨e.idD, e.dataD.to_text, pp, e.dataD⟩) ∧
      (bfsList Q).filter (fun nd => nd.parent == some e.idD)
        = e.childrenD.toListF.map
            (fun c => (⟨c.idD, c.dataD.to_text, some e.idD, c.dataD⟩ : FlatNode)) := by
  intro k
  induction k with
  | zero =>
    intro Q hk _ _ e he
    have hq : Q = [] := qMeasure_eq_zero (Nat.le_zero.mp hk)
    subst hq
    rw [allTrees_nil] at he
    exact absurd he (List.not_mem_nil e)
  | succ k ih =>
    intro Q hk hnd hpi e he
    cases Q with
    | nil =>
      rw [allTrees_nil] at he
      exact absurd he (List.not_mem_nil e)
    | cons e0 rest =>
      obtain ⟨d, p⟩ := e0
      have hstep := qMeasure_step d p rest
      have hndQ : (qIds ((d, p) :: rest)).Nodup := hnd
      have hnd2 := (nodup_step d p rest hndQ).1
      have hdout := (nodup_step d p rest hndQ).2
      have hpi2 := parInv_step d p rest hndQ hpi
      rw [allTrees_cons] at he
      rcases List.mem_cons.mp he with rfl | he
      · constructor
        · refine ⟨p, ?_⟩
          rw [bfsList_cons]
          rw [List.find?_cons_of_pos _ (by
            show ((flatOf (e, p)).id == e.idD) = true
            exact beq_self_eq_true _)]
          rfl
        · rw [bfsList_cons, List.filter_cons]
          have hcond : ((flatOf (e, p)).parent == some e.idD) = (p == some e.idD) := rfl
          have hpfalse : (p == some e.idD) = false := by
            cases p with
            | none => rfl
            | some pp =>
              have hout := hpi (e, some pp) (List.mem_cons_self _ _) pp rfl
              have : pp ≠ e.idD := fun hx =>
                hout (hx ▸ idD_mem_qIds e (some pp) rest)
              simp only [beq_eq_false_iff_ne, ne_eq, Option.some.injEq]
              exact this
          rw [hcond, hpfalse, if_neg Bool.false_ne_true]
          rw [bfs_filter_out (qMeasure (rest ++ childEntries e)) _ e.idD (le_refl _) hdout]
          rw [List.filter_append]
          have hrest : rest.filter (fun en => en.2 == some e.idD) = [] := by
            rw [List.filter_eq_nil_iff]
            intro en hen
            cases hen2 : en.2 with
            | none => simp [hen2]
            | some pp =>
              have hout := hpi en (List.mem_cons_of_mem _ hen) pp hen2
              have hne : pp ≠ e.idD := fun hx =>
                hout (hx ▸ idD_mem_qIds e p rest)
              simp only [hen2, Bool.not_eq_true, beq_eq_false_iff_ne, ne_eq,
                Option.some.injEq]
              exact hne
          have hch : (childEntries e).filter (fun en => en.2 == some e.idD)
              = childEntries e := by
            rw [List.filter_eq_self]
            intro en hen
            obtain ⟨c, _, rfl⟩ := List.mem_map.mp hen
            exact beq_self_eq_true _
          rw [hrest, hch, List.nil_append]
          show ((e.childrenD.toListF.map (fun c => (c, some e.idD))).map flatOf) = _
          rw [List.map_map]
          rfl
      · have hrec := ih (rest ++ childEntries d) (by omega) hnd2 hpi2 e he
        obtain ⟨⟨pp, hfind⟩, hfilter⟩ := hrec
        have hemem : e.idD ∈ qIds (rest ++ childEntries d) :=
          allTrees_id_mem (qMeasure (rest ++ childEntries d)) _ (le_refl _) e he
        constructor
        · refine ⟨pp, ?_⟩
          rw [bfsList_cons]
          rw [List.find?_cons_of_neg _ (by
            show ¬(((flatOf (d, p)).id == e.idD) = true)
            have hne : d.idD ≠ e.idD := fun hx => hdout (hx ▸ hemem)
            simp only [beq_iff_eq]
            exact hne)]
          exact hfind
        · rw [bfsList_cons, List.filter_cons]
          have hcond : ((flatOf (d, p)).parent == some e.idD) = (p == some e.idD) := rfl
          have hpfalse : (p == some e.idD) = false := by
            cases hp : p with
            | none => rfl
            | some qq =>
              have hout := hpi (d, p) (List.mem_cons_self _ _) qq (by rw [hp])
              have hne : qq ≠ e.idD := fun hx =>
                hout (hx ▸ qIds_step_subset d p rest _ hemem)
              simp only [beq_eq_false_iff_ne, ne_eq, Option.some.injEq]
              exact hne
          rw [hcond, hpfalse, if_neg Bool.false_ne_true]
          exact hfilter

theorem sizeD_le_sizeFD : ∀ g : DictForest, ∀ c ∈ g.toListF, c.sizeD ≤ g.sizeFD
  | .nil => by
    intro c hc
    exact absurd hc (List.not_mem_nil c)
  | .cons d g2 => by
    intro c hc
    have h2 : (DictForest.cons d g2).sizeFD = d.sizeD + g2.sizeFD := rfl
    rcases List.mem_cons.mp hc with rfl | hc
    · omega
    · have h1 := sizeD_le_sizeFD g2 c hc
      omega

theorem ofList_toListF : ∀ g : DictForest, DictForest.ofList g.toListF = g
  | .nil => rfl
  | .cons d g2 => by
    show DictForest.cons d (DictForest.ofList g2.toListF) = _
    rw [ofList_toListF g2]

theorem bfsList_length : ∀ k Q, qMeasure Q ≤ k → (bfsList Q).length = qMeasure Q := by
  intro k
  induction k with
  | zero =>
    intro Q hk
    have hq : Q = [] := qMeasure_eq_zero (Nat.le_zero.mp hk)
    subst hq
    rw [bfsList_nil, qMeasure_nil]
    rfl
  | succ k ih =>
    intro Q hk
    cases Q with
    | nil =>
      rw [bfsList_nil, qMeasure_nil]
      rfl
    | cons e rest =>
      obtain ⟨d, p⟩ := e
      have hstep := qMeasure_step d p rest
      rw [bfsList_cons, List.length_cons, ih _ (by omega)]
      omega

theorem rootId_bfs (d : DictTree) :
    (ParsedTree.mk (bfsList [(d, none)])).rootId = some d.idD := by
  show ((bfsList [(d, none)]).find? (fun nd => nd.parent.isNone)).map (fun nd => nd.id) = _
  rw [bfsList_cons]
  rfl

mutual
theorem toDict_correct : ∀ (e : DictTree) (Q : List (DictTree × Option Int)) (fuel : Nat),
    (qIds Q).Nodup → ParInv Q → e ∈ allTrees Q → e.sizeD ≤ fuel →
    ParsedTree.toDictAux ⟨bfsList Q⟩ fuel e.idD = .ok e
  | .mk i dat f => by
    intro Q fuel hnd hpi hmem hfuel
    have hs : (DictTree.mk i dat f).sizeD = 1 + f.sizeFD := rfl
    cases fuel with
    | zero => omega
    | succ fl =>
      obtain ⟨⟨pp, hfind⟩, hfilter⟩ := bfs_sub (qMeasure Q) Q (le_refl _) hnd hpi _ hmem
      simp only [ParsedTree.toDictAux]
      dsimp only [DictTree.idD]
      have hfind2 : ParsedTree.find ⟨bfsList Q⟩ i
          = some ⟨i, dat.to_text, pp, dat⟩ := hfind
      have hch2 : ParsedTree.children ⟨bfsList Q⟩ i
          = f.toListF.map (fun c => (⟨c.idD, c.dataD.to_text, some i, c.dataD⟩ : FlatNode)) :=
        hfilter
      rw [hfind2]
      dsimp only
      rw [ebind_ok, hch2]
      have hmemc : ∀ c ∈ f.toListF, c ∈ allTrees Q := fun c hc =>
        child_mem_allTrees (qMeasure Q) Q (le_refl _) _ hmem c hc
      have hsz : ∀ c ∈ f.toListF, c.sizeD ≤ fl := by
        intro c hc
        have h1 := sizeD_le_sizeFD f c hc
        omega
      rw [toDict_forest f Q fl i hnd hpi hmemc hsz, ebind_ok]
      show Except.ok (DictTree.mk i dat (DictForest.ofList f.toListF)) = _
      rw [ofList_toListF]
theorem toDict_forest : ∀ (g : DictForest) (Q : List (DictTree × Option Int)) (fuel : Nat)
    (pid : Int),
    (qIds Q).Nodup → ParInv Q → (∀ c ∈ g.toListF, c ∈ allTrees Q) →
    (∀ c ∈ g.toListF, c.sizeD ≤ fuel) →
    mapME (fun c => ParsedTree.toDictAux ⟨bfsList Q⟩ fuel c.id)
      (g.toListF.map (fun c => (⟨c.idD, c.dataD.to_text, some pid, c.dataD⟩ : FlatNode)))
      = .ok g.toListF
  | .nil => by
    intro Q fuel pid _ _ _ _
    rfl
  | .cons c g2 => by
    intro Q fuel pid hnd hpi hmem hsz
    show (ParsedTree.toDictAux ⟨bfsList Q⟩ fuel c.idD >>= fun b =>
      mapME (fun cf => ParsedTree.toDictAux ⟨bfsList Q⟩ fuel cf.id)
        (g2.toListF.map (fun cc => (⟨cc.idD, cc.dataD.to_text, some pid, cc.dataD⟩ : FlatNode)))
        >>= fun bs => Except.ok (b :: bs)) = _
    have h1 : ParsedTree.toDictAux ⟨bfsList Q⟩ fuel c.idD = .ok c :=
      toDict_correct c Q fuel hnd hpi (hmem c (List.mem_cons_self _ _))
        (hsz c (List.mem_cons_self _ _))
    have hmem2 : ∀ cc ∈ g2.toListF, cc ∈ allTrees Q := fun cc hcc =>
      hmem cc (List.mem_cons_of_mem _ hcc)
    have hsz2 : ∀ cc ∈ g2.toListF, cc.sizeD ≤ fuel := fun cc hcc =>
      hsz cc (List.mem_cons_of_mem _ hcc)
    rw [h1, ebind_ok, toDict_forest g2 Q fuel pid hnd hpi hmem2 hsz2, ebind_ok]
    rfl
end

theorem qIds_singleton (d : DictTree) : qIds [(d, none)] = d.allIds := by
  rw [qIds_cons]
  show d.allIds ++ [] = d.allIds
  rw [List.append_nil]

theorem parInv_singleton (d : DictTree) : ParInv [(d, none)] := by
  intro e he pp hpp
  rw [List.mem_singleton] at he
  subst he
  exact absurd hpp (by simp)

/-- C5: for every dict tree `d` (shape `{id, data, children}` with
`data = {role, pos, word}`) whose identifiers are distinct,
`from_dict d` followed by `to_dict()` returns exactly `d`, all `id`
fields preserved: the breadth-first insertion followed by the id-driven
depth-first reading is the identity. -/
theorem dict_roundtrip (d : DictTree) (h : d.allIds.Nodup) :
    ParsedTree.from_dict d >>= ParsedTree.to_dict = .ok d := by
  rw [from_dict_eq d h, ebind_ok]
  have hnd0 : (qIds [(d, none)]).Nodup := by
    rw [qIds_singleton]
    exact h
  have hpi0 := parInv_singleton d
  have hmem0 : d ∈ allTrees [(d, none)] := by
    rw [allTrees_cons]
    exact List.mem_cons_self _ _
  have hlen : (bfsList [(d, none)]).length = d.sizeD := by
    rw [bfsList_length (qMeasure [(d, none)]) _ (le_refl _), qMeasure_cons, qMeasure_nil]
    omega
  show ParsedTree.to_dict ⟨bfsList [(d, none)]⟩ = Except.ok d
  rw [ParsedTree.to_dict, rootId_bfs d]
  show ParsedTree.toDictAux ⟨bfsList [(d, none)]⟩ (bfsList [(d, none)]).length d.idD
    = Except.ok d
  rw [hlen]
  exact toDict_correct d [(d, none)] d.sizeD hnd0 hpi0 hmem0 (le_refl _)

def c5dict : DictTree :=
  .mk 0 ⟨none, some "S".toList, none⟩
    (.cons (.mk 1 ⟨some "Head".toList, some "Nab".toList, some "中文字".toList⟩ .nil)
      (.cons (.mk 2 ⟨some "particle".toList, some "Td".toList, some "耶".toList⟩ .nil)
        .nil))

/-- Witness for C5 at the spec's §4.3 example dict. -/
theorem dict_roundtrip_w :
    (c5dict.allIds.Nodup) ∧
      (ParsedTree.from_dict c5dict >>= ParsedTree.to_dict = .ok c5dict) :=
  ⟨by decide, dict_roundtrip c5dict (by decide)⟩
